import Mathlib

/-!
Verification development for the in-memory cache server.

The Rust sources under `src/` are embedded shallowly:
* `storage/entity.rs` — the `Entity` value enumeration and the frame codec
  (`check`, `parse`, `get_line`, `get_decimal`, `skip`, `peek_u8`, `get_u8`);
* `storage.rs` — the storage engine state (`entities` map, `expirations`
  B-tree index, `shutdown` flag) and its operations (`get`, `del`, `set`,
  `purge_expired_keys`);
* `parse.rs` — the `Parse` helper over one array frame and command dispatch
  (`Command::from_frame`);
* `cmd/*.rs` — per-command `parse_frames` / `apply`;
* `server.rs` — one iteration of `Handler::run`.

Byte strings are lists of naturals (each < 256 in the real program); Rust
`String` values are represented by their UTF-8 byte lists, so the derived
byte-wise orderings and equalities coincide with Rust's.  `Instant` and
`Duration` are naturals (milliseconds).  `tokio` concurrency is embedded as
explicit state passing: every storage operation takes the current instant
`now` as an argument where the Rust code reads `Instant::now()`.
-/

namespace Cache

/-- Byte strings: lists of byte values. -/
abbrev Bytes := List Nat

/-- The bytes of an ASCII string literal (for ASCII, code points = UTF-8 bytes). -/
def bytesOfAscii (s : String) : Bytes := s.data.map Char.toNat

/-- The `Entity` enumeration from `storage/entity.rs` (named `Value` in the
spec).  Rust `String`/`Bytes` payloads are byte lists; `Integer(i64)` is an
`Int` (the i64 range is an invariant of the Rust type, restated as a
hypothesis where needed). Constructor order matches the Rust declaration
order (`Simple`, `Bulk`, `Error`, `Integer`, `Null`, `Array`), which the
derived `Ord` uses. -/
inductive Entity : Type where
  | simple (s : Bytes)
  | bulk (b : Bytes)
  | error (s : Bytes)
  | integer (i : Int)
  | null
  | array (xs : List Entity)

mutual

/-- Structural equality test for `Entity` (the derived `PartialEq`/`Eq`). -/
def Entity.beq : Entity → Entity → Bool
  | .simple a, .simple b => a == b
  | .bulk a, .bulk b => a == b
  | .error a, .error b => a == b
  | .integer a, .integer b => a == b
  | .null, .null => true
  | .array a, .array b => Entity.beqList a b
  | _, _ => false

/-- Element-wise equality test for entity lists. -/
def Entity.beqList : List Entity → List Entity → Bool
  | [], [] => true
  | a :: as, b :: bs => Entity.beq a b && Entity.beqList as bs
  | _, _ => false

end

mutual

theorem Entity.beq_iff : ∀ a b : Entity, Entity.beq a b = true ↔ a = b
  | .simple a, .simple b => by simp [Entity.beq]
  | .bulk a, .bulk b => by simp [Entity.beq]
  | .error a, .error b => by simp [Entity.beq]
  | .integer a, .integer b => by simp [Entity.beq]
  | .null, .null => by simp [Entity.beq]
  | .array a, .array b => by
    simp only [Entity.beq, Entity.array.injEq]
    exact Entity.beqList_iff a b
  | .simple _, .bulk _ => by simp [Entity.beq]
  | .simple _, .error _ => by simp [Entity.beq]
  | .simple _, .integer _ => by simp [Entity.beq]
  | .simple _, .null => by simp [Entity.beq]
  | .simple _, .array _ => by simp [Entity.beq]
  | .bulk _, .simple _ => by simp [Entity.beq]
  | .bulk _, .error _ => by simp [Entity.beq]
  | .bulk _, .integer _ => by simp [Entity.beq]
  | .bulk _, .null => by simp [Entity.beq]
  | .bulk _, .array _ => by simp [Entity.beq]
  | .error _, .simple _ => by simp [Entity.beq]
  | .error _, .bulk _ => by simp [Entity.beq]
  | .error _, .integer _ => by simp [Entity.beq]
  | .error _, .null => by simp [Entity.beq]
  | .error _, .array _ => by simp [Entity.beq]
  | .integer _, .simple _ => by simp [Entity.beq]
  | .integer _, .bulk _ => by simp [Entity.beq]
  | .integer _, .error _ => by simp [Entity.beq]
  | .integer _, .null => by simp [Entity.beq]
  | .integer _, .array _ => by simp [Entity.beq]
  | .null, .simple _ => by simp [Entity.beq]
  | .null, .bulk _ => by simp [Entity.beq]
  | .null, .error _ => by simp [Entity.beq]
  | .null, .integer _ => by simp [Entity.beq]
  | .null, .array _ => by simp [Entity.beq]
  | .array _, .simple _ => by simp [Entity.beq]
  | .array _, .bulk _ => by simp [Entity.beq]
  | .array _, .error _ => by simp [Entity.beq]
  | .array _, .integer _ => by simp [Entity.beq]
  | .array _, .null => by simp [Entity.beq]

theorem Entity.beqList_iff : ∀ a b : List Entity, Entity.beqList a b = true ↔ a = b
  | [], [] => by simp [Entity.beqList]
  | a :: as, b :: bs => by
    simp only [Entity.beqList, Bool.and_eq_true, List.cons.injEq]
    exact and_congr (Entity.beq_iff a b) (Entity.beqList_iff as bs)
  | [], _ :: _ => by simp [Entity.beqList]
  | _ :: _, [] => by simp [Entity.beqList]

end

instance : DecidableEq Entity := fun a b =>
  decidable_of_iff _ (Entity.beq_iff a b)

/-- `CacheError` from `error.rs`. -/
inductive Cerr : Type where
  | endOfStream
  | incomplete
  | other (msg : String)
deriving DecidableEq

instance {ε α : Type} [DecidableEq ε] [DecidableEq α] : DecidableEq (Except ε α) :=
  fun x y =>
    match x, y with
    | .ok a, .ok b => if h : a = b then isTrue (by rw [h]) else isFalse (by simp [h])
    | .error a, .error b => if h : a = b then isTrue (by rw [h]) else isFalse (by simp [h])
    | .ok _, .error _ => isFalse (by simp)
    | .error _, .ok _ => isFalse (by simp)

/-- A `std::io::Cursor<&[u8]>`: the whole buffer plus a position. -/
structure Curs where
  buf : Bytes
  pos : Nat
deriving DecidableEq

/-- Bytes remaining past the cursor position (`Buf::remaining`). -/
def Curs.rem (c : Curs) : Nat := c.buf.length - c.pos

/-- The suffix of the buffer from the position (`Buf::chunk`). -/
def Curs.chunk (c : Curs) : Bytes := c.buf.drop c.pos

/-- `peek_u8` from `entity.rs`: first remaining byte, without advancing. -/
def peekU8 (c : Curs) : Except Cerr Nat :=
  match c.chunk with
  | [] => .error .incomplete
  | b :: _ => .ok b

/-- `get_u8` from `entity.rs`: first remaining byte, advancing by one. -/
def getU8 (c : Curs) : Except Cerr (Nat × Curs) :=
  match c.chunk with
  | [] => .error .incomplete
  | b :: _ => .ok (b, ⟨c.buf, c.pos + 1⟩)

/-- `skip` from `entity.rs`: advance by `n`, or `Incomplete` if fewer remain. -/
def skip (c : Curs) (n : Nat) : Except Cerr Curs :=
  if c.rem < n then .error .incomplete else .ok ⟨c.buf, c.pos + n⟩

/-- Index of the first `\r\n` pair in a byte list, if any (the scan loop
inside `get_line`; the Rust loop inspects `src.get_ref()` from the current
position, which is exactly this suffix scan). -/
def findCrlf : Bytes → Option Nat
  | [] => none
  | a :: rest =>
    match rest with
    | [] => none
    | b :: _ =>
      if a = 13 ∧ b = 10 then some 0 else (findCrlf rest).map (· + 1)

/-- `get_line` from `entity.rs`: the bytes up to the first `\r\n` from the
current position; positions past it.  (The Rust code computes
`end = len - 1` and is only ever invoked on a nonempty buffer, after a tag
byte was read.) -/
def getLine (c : Curs) : Except Cerr (Bytes × Curs) :=
  match findCrlf c.chunk with
  | some i => .ok (c.chunk.take i, ⟨c.buf, c.pos + i + 2⟩)
  | none => .error .incomplete

/-- All-digit decimal value of a byte list, or `none` (the digit part of
`atoi`): the whole slice must be digits and nonempty. -/
def digitsVal (l : Bytes) : Option Nat :=
  if l = [] then none
  else if l.all (fun b => 48 ≤ b && b ≤ 57) then
    some (l.foldl (fun acc b => acc * 10 + (b - 48)) 0)
  else none

/-- `atoi::atoi::<i64>`: an optional single sign followed by digits making up
the entire slice, with a checked i64 range (accumulation via checked
arithmetic fails exactly when the value leaves the i64 range). -/
def atoiI64 (l : Bytes) : Option Int :=
  match l with
  | [] => none
  | b :: rest =>
    if b = 43 then
      (digitsVal rest).bind fun n =>
        if (n : Int) ≤ 2 ^ 63 - 1 then some (n : Int) else none
    else if b = 45 then
      (digitsVal rest).bind fun n =>
        if (n : Int) ≤ 2 ^ 63 then some (-(n : Int)) else none
    else
      (digitsVal (b :: rest)).bind fun n =>
      if (n : Int) ≤ 2 ^ 63 - 1 then some (n : Int) else none

/-- `get_decimal` from `entity.rs`: a line parsed by `atoi`, or the
invalid-format protocol error. -/
def getDecimal (c : Curs) : Except Cerr (Int × Curs) :=
  match getLine c with
  | .error e => .error e
  | .ok (line, c2) =>
    match atoiI64 line with
    | some n => .ok (n, c2)
    | none => .error (.other "protocol error; invalid frame format")

/-- Is a byte a UTF-8 continuation byte (`10xxxxxx`)? -/
def isCont (b : Nat) : Bool := 128 ≤ b && b ≤ 191

/-- UTF-8 validity of a byte list, exactly as `String::from_utf8` decides it
(shortest-form encodings, no surrogates, max U+10FFFF). -/
def utf8Valid : Bytes → Bool
  | [] => true
  | b :: rest =>
    if b ≤ 127 then utf8Valid rest
    else if b ≤ 193 then false
    else if b ≤ 223 then
      match rest with
      | c1 :: r => isCont c1 && utf8Valid r
      | [] => false
    else if b = 224 then
      match rest with
      | c1 :: c2 :: r => (160 ≤ c1 && c1 ≤ 191) && isCont c2 && utf8Valid r
      | _ => false
    else if b ≤ 236 then
      match rest with
      | c1 :: c2 :: r => isCont c1 && isCont c2 && utf8Valid r
      | _ => false
    else if b = 237 then
      match rest with
      | c1 :: c2 :: r => (128 ≤ c1 && c1 ≤ 159) && isCont c2 && utf8Valid r
      | _ => false
    else if b ≤ 239 then
      match rest with
      | c1 :: c2 :: r => isCont c1 && isCont c2 && utf8Valid r
      | _ => false
    else if b = 240 then
      match rest with
      | c1 :: c2 :: c3 :: r => (144 ≤ c1 && c1 ≤ 191) && isCont c2 && isCont c3 && utf8Valid r
      | _ => false
    else if b ≤ 243 then
      match rest with
      | c1 :: c2 :: c3 :: r => isCont c1 && isCont c2 && isCont c3 && utf8Valid r
      | _ => false
    else if b = 244 then
      match rest with
      | c1 :: c2 :: c3 :: r => (128 ≤ c1 && c1 ≤ 143) && isCont c2 && isCont c3 && utf8Valid r
      | _ => false
    else false

theorem chunk_cons_lt {c : Curs} {x : Nat} {xs : Bytes} (h : c.chunk = x :: xs) :
    c.pos < c.buf.length := by
  have := congrArg List.length h
  simp [Curs.chunk] at this
  omega

theorem getU8_ok {c : Curs} {b : Nat} {c1 : Curs} (h : getU8 c = .ok (b, c1)) :
    c1.buf = c.buf ∧ c1.pos = c.pos + 1 ∧ c.pos < c.buf.length := by
  unfold getU8 at h
  cases hc : c.chunk with
  | nil => simp [hc] at h
  | cons x xs =>
    simp only [hc] at h
    cases h
    exact ⟨rfl, rfl, chunk_cons_lt hc⟩

theorem findCrlf_bound : ∀ (l : Bytes) {i : Nat}, findCrlf l = some i → i + 2 ≤ l.length := by
  intro l
  induction l with
  | nil => intro i h; simp [findCrlf] at h
  | cons a t ih =>
    intro i h
    cases t with
    | nil => simp [findCrlf] at h
    | cons b rest =>
      rw [findCrlf] at h
      split at h
      · simp at h
        simp [← h]
      · cases hf : findCrlf (b :: rest) with
        | none => rw [hf] at h; simp at h
        | some j =>
          rw [hf] at h
          simp at h
          have := ih hf
          simp only [List.length_cons] at this ⊢
          omega

theorem getLine_adv {c : Curs} {l : Bytes} {c2 : Curs} (h : getLine c = .ok (l, c2)) :
    c2.buf = c.buf ∧ c.pos < c2.pos ∧ (c.pos ≤ c.buf.length → c2.pos ≤ c.buf.length) := by
  unfold getLine at h
  cases hf : findCrlf c.chunk with
  | none => simp [hf] at h
  | some i =>
    simp only [hf] at h
    cases h
    have hb := findCrlf_bound c.chunk hf
    simp [Curs.chunk] at hb
    refine ⟨rfl, ?_, ?_⟩
    · show c.pos < c.pos + i + 2
      omega
    · intro hle
      show c.pos + i + 2 ≤ c.buf.length
      omega

theorem getDecimal_adv {c : Curs} {n : Int} {c2 : Curs} (h : getDecimal c = .ok (n, c2)) :
    c2.buf = c.buf ∧ c.pos < c2.pos ∧ (c.pos ≤ c.buf.length → c2.pos ≤ c.buf.length) := by
  unfold getDecimal at h
  cases hL : getLine c with
  | error e => rw [hL] at h; exact absurd h (by simp)
  | ok p =>
    obtain ⟨l, c'⟩ := p
    rw [hL] at h
    cases ha : atoiI64 l with
    | none => simp [ha] at h
    | some m =>
      simp only [ha] at h
      cases h
      exact getLine_adv hL

theorem skip_ok {c : Curs} {n : Nat} {c2 : Curs} (h : skip c n = .ok c2) :
    c2.buf = c.buf ∧ c2.pos = c.pos + n ∧ n ≤ c.rem := by
  unfold skip at h
  split at h
  · exact absurd h (by simp)
  · cases h
    constructor
    · rfl
    · constructor
      · rfl
      · omega

/-- Result of `Entity::check`: `Ok` with the cursor past the frame, or a
`CacheError`.  `outOfFuel` is an artefact of the embedding: the recursion is
driven by a fuel counter which the wrappers seed with more than the
remaining byte count, and every recursive call strictly consumes input, so
this constructor is unreachable from the wrappers (`checkFuel_fuel_irrel`). -/
inductive COut : Type where
  | ok (c2 : Curs)
  | err (e : Cerr)
  | outOfFuel
deriving DecidableEq

/-- Outcome of `Entity::parse`: a value plus the cursor past it, an error,
the `unimplemented!()` panic (its arm is reached on an invalid tag byte), or
the unreachable fuel artefact. -/
inductive POut : Type where
  | ok (e : Entity) (c : Curs)
  | err (e : Cerr)
  | panicked
  | outOfFuel
deriving DecidableEq

/-- Outcome of the array-children parse loop. -/
inductive PLOut : Type where
  | ok (es : List Entity) (c : Curs)
  | err (e : Cerr)
  | panicked
  | outOfFuel
deriving DecidableEq

/-- The `for _ in 0..len { Entity::check(src)?; }` loop, abstracted over the
checker for one frame. -/
def iterCheck (step : Curs → COut) : Nat → Curs → COut
  | 0, c => .ok c
  | n + 1, c =>
    match step c with
    | .ok c1 => iterCheck step n c1
    | .err e => .err e
    | .outOfFuel => .outOfFuel

/-- `Entity::check` from `entity.rs`, fuel-indexed: validate that one
complete frame starts at the cursor and advance past it.  Byte tags:
`+` 43, `-` 45, `:` 58, `$` 36, `*` 42. -/
def checkFuel : Nat → Curs → COut
  | 0, _ => .outOfFuel
  | f + 1, c =>
    match getU8 c with
    | .error e => .err e
    | .ok (b, c1) =>
      if b = 43 then
        match getLine c1 with
        | .error e => .err e
        | .ok (_, c2) => .ok c2
      else if b = 45 then
        match getLine c1 with
        | .error e => .err e
        | .ok (_, c2) => .ok c2
      else if b = 58 then
        match getDecimal c1 with
        | .error e => .err e
        | .ok (_, c2) => .ok c2
      else if b = 36 then
        match peekU8 c1 with
        | .error e => .err e
        | .ok p =>
          if p = 45 then
            match skip c1 4 with
            | .error e => .err e
            | .ok c2 => .ok c2
          else
            match getDecimal c1 with
            | .error e => .err e
            | .ok (len, c2) =>
              if len < 0 then .err (.other "protocol error: invalid frame format")
              else
                match skip c2 (len.toNat + 2) with
                | .error e => .err e
                | .ok c3 => .ok c3
      else if b = 42 then
        match getDecimal c1 with
        | .error e => .err e
        | .ok (len, c2) => iterCheck (fun cc => checkFuel f cc) len.toNat c2
      else .err (.other ("protocol error; invalid frame type byte `" ++ toString b ++ "`"))

/-- `Entity::check` (the fuel seed strictly exceeds the remaining bytes, so
the recursion never exhausts it). -/
def Entity.check (c : Curs) : COut := checkFuel (c.rem + 1) c

/-- The `for _ in 0..len { out.push(Entity::parse(src)?); }` loop,
abstracted over the parser for one frame. -/
def iterParse (step : Curs → POut) : Nat → Curs → PLOut
  | 0, c => .ok [] c
  | n + 1, c =>
    match step c with
    | .ok e c1 =>
      match iterParse step n c1 with
      | .ok es c2 => .ok (e :: es) c2
      | .err e2 => .err e2
      | .panicked => .panicked
      | .outOfFuel => .outOfFuel
    | .err e => .err e
    | .panicked => .panicked
    | .outOfFuel => .outOfFuel

/-- `Entity::parse` from `entity.rs`, fuel-indexed: consume one frame and
build its `Entity`.  Mirrors the Rust code arm for arm; the final
`_ => unimplemented!()` arm becomes `panicked`. -/
def parseFuel : Nat → Curs → POut
  | 0, _ => .outOfFuel
  | f + 1, c =>
    match getU8 c with
    | .error e => .err e
    | .ok (b, c1) =>
      if b = 43 then
        match getLine c1 with
        | .error e => .err e
        | .ok (l, c2) =>
          if utf8Valid l then .ok (.simple l) c2
          else .err (.other "protocol error; invalid frame format")
      else if b = 45 then
        match getLine c1 with
        | .error e => .err e
        | .ok (l, c2) =>
          if utf8Valid l then .ok (.error l) c2
          else .err (.other "protocol error; invalid frame format")
      else if b = 58 then
        match getDecimal c1 with
        | .error e => .err e
        | .ok (n, c2) => .ok (.integer n) c2
      else if b = 36 then
        match peekU8 c1 with
        | .error e => .err e
        | .ok p =>
          if p = 45 then
            match getLine c1 with
            | .error e => .err e
            | .ok (l, c2) =>
              if l = [45, 49] then .ok .null c2
              else .err (.other "protocol error; invalid frame format")
          else
            match getDecimal c1 with
            | .error e => .err e
            | .ok (len, c2) =>
              if len < 0 then .err (.other "protocol error: invalid frame format")
              else if c2.rem < len.toNat + 2 then .err .incomplete
              else .ok (.bulk (c2.chunk.take len.toNat)) ⟨c2.buf, c2.pos + (len.toNat + 2)⟩
      else if b = 42 then
        match getDecimal c1 with
        | .error e => .err e
        | .ok (len, c2) =>
          if len < 0 then .err (.other "protocol error: invalid frame format")
          else
            match iterParse (fun cc => parseFuel f cc) len.toNat c2 with
            | .ok es c3 => .ok (.array es) c3
            | .err e => .err e
            | .panicked => .panicked
            | .outOfFuel => .outOfFuel
      else .panicked

/-- `Entity::parse` (the fuel seed strictly exceeds the remaining bytes, so
the recursion never exhausts it). -/
def Entity.parse (c : Curs) : POut := parseFuel (c.rem + 1) c

theorem iterCheck_adv (step : Curs → COut)
    (hstep : ∀ cb cb2, step cb = .ok cb2 → cb2.buf = cb.buf ∧ cb.pos ≤ cb2.pos) :
    ∀ (n : Nat) (c c2 : Curs), iterCheck step n c = .ok c2 →
      c2.buf = c.buf ∧ c.pos ≤ c2.pos := by
  intro n
  induction n with
  | zero =>
    intro c c2 h
    rw [iterCheck] at h
    cases h
    exact ⟨rfl, Nat.le_refl _⟩
  | succ n ih =>
    intro c c2 h
    rw [iterCheck] at h
    cases hs : step c with
    | ok c1 =>
      simp only [hs] at h
      obtain ⟨h1, h2⟩ := hstep _ _ hs
      obtain ⟨h3, h4⟩ := ih _ _ h
      exact ⟨h3.trans h1, by omega⟩
    | err e => rw [hs] at h; exact COut.noConfusion h
    | outOfFuel => rw [hs] at h; exact COut.noConfusion h

theorem checkFuel_adv : ∀ (f : Nat) (c c2 : Curs), checkFuel f c = .ok c2 →
    c2.buf = c.buf ∧ c.pos < c2.pos ∧ c.pos < c.buf.length := by
  intro f
  induction f with
  | zero =>
    intro c c2 h
    rw [checkFuel] at h
    simp at h
  | succ f ih =>
    intro c c2 h
    rw [checkFuel] at h
    cases hU : getU8 c with
    | error e => rw [hU] at h; exact COut.noConfusion h
    | ok bc =>
      obtain ⟨b, c1⟩ := bc
      simp only [hU] at h
      obtain ⟨hb1, hp1, hlt⟩ := getU8_ok hU
      by_cases h43 : b = 43
      · rw [if_pos h43] at h
        cases hL : getLine c1 with
        | error e => rw [hL] at h; exact COut.noConfusion h
        | ok p =>
          obtain ⟨l, c2'⟩ := p
          simp only [hL] at h
          cases h
          obtain ⟨ha, hb, _⟩ := getLine_adv hL
          exact ⟨ha.trans hb1, by omega, hlt⟩
      · rw [if_neg h43] at h
        by_cases h45 : b = 45
        · rw [if_pos h45] at h
          cases hL : getLine c1 with
          | error e => rw [hL] at h; exact COut.noConfusion h
          | ok p =>
            obtain ⟨l, c2'⟩ := p
            simp only [hL] at h
            cases h
            obtain ⟨ha, hb, _⟩ := getLine_adv hL
            exact ⟨ha.trans hb1, by omega, hlt⟩
        · rw [if_neg h45] at h
          by_cases h58 : b = 58
          · rw [if_pos h58] at h
            cases hD : getDecimal c1 with
            | error e => rw [hD] at h; exact COut.noConfusion h
            | ok p =>
              obtain ⟨n, c2'⟩ := p
              simp only [hD] at h
              cases h
              obtain ⟨ha, hb, _⟩ := getDecimal_adv hD
              exact ⟨ha.trans hb1, by omega, hlt⟩
          · rw [if_neg h58] at h
            by_cases h36 : b = 36
            · rw [if_pos h36] at h
              cases hP : peekU8 c1 with
              | error e => rw [hP] at h; exact COut.noConfusion h
              | ok p =>
                simp only [hP] at h
                by_cases hp45 : p = 45
                · rw [if_pos hp45] at h
                  cases hS : skip c1 4 with
                  | error e => rw [hS] at h; exact COut.noConfusion h
                  | ok c2' =>
                    simp only [hS] at h
                    cases h
                    obtain ⟨ha, hb, _⟩ := skip_ok hS
                    exact ⟨ha.trans hb1, by omega, hlt⟩
                · rw [if_neg hp45] at h
                  cases hD : getDecimal c1 with
                  | error e => rw [hD] at h; exact COut.noConfusion h
                  | ok p' =>
                    obtain ⟨len, c2'⟩ := p'
                    simp only [hD] at h
                    by_cases hneg : len < 0
                    · rw [if_pos hneg] at h
                      simp at h
                    · rw [if_neg hneg] at h
                      cases hS : skip c2' (len.toNat + 2) with
                      | error e => rw [hS] at h; exact COut.noConfusion h
                      | ok c3 =>
                        simp only [hS] at h
                        cases h
                        obtain ⟨ha, hb, _⟩ := getDecimal_adv hD
                        obtain ⟨hc, hd, _⟩ := skip_ok hS
                        exact ⟨(hc.trans ha).trans hb1, by omega, hlt⟩
            · rw [if_neg h36] at h
              by_cases h42 : b = 42
              · rw [if_pos h42] at h
                cases hD : getDecimal c1 with
                | error e => rw [hD] at h; exact COut.noConfusion h
                | ok p' =>
                  obtain ⟨len, c2'⟩ := p'
                  simp only [hD] at h
                  obtain ⟨ha, hb, _⟩ := getDecimal_adv hD
                  have hstep : ∀ cb cb2, checkFuel f cb = .ok cb2 →
                      cb2.buf = cb.buf ∧ cb.pos ≤ cb2.pos := by
                    intro cb cb2 hh
                    obtain ⟨x, y, _⟩ := ih cb cb2 hh
                    exact ⟨x, Nat.le_of_lt y⟩
                  obtain ⟨hc, hd⟩ := iterCheck_adv _ hstep _ _ _ h
                  exact ⟨(hc.trans ha).trans hb1, by omega, hlt⟩
              · rw [if_neg h42] at h
                simp at h

/-- Fuel-driven digit emitter (structural recursion so that the kernel can
evaluate it; the fuel seed strictly exceeds the value, which bounds the
digit count). -/
def natDecBytesGo : Nat → Nat → Bytes
  | 0, _ => []
  | f + 1, n =>
    if n < 10 then [48 + n]
    else natDecBytesGo f (n / 10) ++ [48 + n % 10]

/-- Decimal digit bytes of a natural number (most significant first), as the
standard library `Display` of an unsigned integer writes them. -/
def natDecBytes (n : Nat) : Bytes := natDecBytesGo (n + 1) n

theorem natDecBytesGo_irrel : ∀ (f g n : Nat), n < f → n < g →
    natDecBytesGo f n = natDecBytesGo g n := by
  intro f
  induction f with
  | zero => intro g n h1 _; omega
  | succ f ih =>
    intro g n h1 h2
    match g with
    | 0 => omega
    | g + 1 =>
      rw [natDecBytesGo, natDecBytesGo]
      by_cases h : n < 10
      · rw [if_pos h, if_pos h]
      · rw [if_neg h, if_neg h]
        have hd : n / 10 < n := Nat.div_lt_self (by omega) (by omega)
        rw [ih g (n / 10) (by omega) (by omega)]

/-- The recursive unfolding of `natDecBytes`. -/
theorem natDecBytes_eq (n : Nat) :
    natDecBytes n = if n < 10 then [48 + n] else natDecBytes (n / 10) ++ [48 + n % 10] := by
  rw [natDecBytes, natDecBytesGo]
  by_cases h : n < 10
  · rw [if_pos h, if_pos h]
  · rw [if_neg h, if_neg h]
    have hd : n / 10 < n := Nat.div_lt_self (by omega) (by omega)
    rw [natDecBytes, natDecBytesGo_irrel n (n / 10 + 1) (n / 10) (by omega) (by omega)]

/-- Decimal byte rendering of a signed integer, as Rust's `i64: Display`
writes it: a `-` sign for negatives, then the digits of the magnitude. -/
def intDecBytes (i : Int) : Bytes :=
  if i < 0 then 45 :: natDecBytes i.natAbs else natDecBytes i.toNat

theorem natDecBytes_digits : ∀ (n : Nat), ∀ b ∈ natDecBytes n, 48 ≤ b ∧ b ≤ 57 := by
  intro n
  induction n using Nat.strong_induction_on with
  | _ n ih =>
    intro b hb
    rw [natDecBytes_eq] at hb
    by_cases h : n < 10
    · rw [if_pos h] at hb
      simp at hb
      omega
    · rw [if_neg h] at hb
      rw [List.mem_append] at hb
      cases hb with
      | inl hmem => exact ih (n / 10) (Nat.div_lt_self (by omega) (by omega)) b hmem
      | inr hmem =>
        simp at hmem
        have : n % 10 < 10 := Nat.mod_lt _ (by omega)
        omega

theorem natDecBytes_ne_nil (n : Nat) : natDecBytes n ≠ [] := by
  rw [natDecBytes_eq]
  by_cases h : n < 10
  · rw [if_pos h]; simp
  · rw [if_neg h]; simp

theorem dval_natDecBytes : ∀ (n : Nat),
    (natDecBytes n).foldl (fun acc b => acc * 10 + (b - 48)) 0 = n := by
  have key : ∀ (n : Nat) (acc : Nat),
      (natDecBytes n).foldl (fun acc b => acc * 10 + (b - 48)) acc = acc * 10 ^ (natDecBytes n).length + n := by
    intro n
    induction n using Nat.strong_induction_on with
    | _ n ih =>
      intro acc
      rw [natDecBytes_eq]
      by_cases h : n < 10
      · rw [if_pos h]
        simp [List.foldl]
      · rw [if_neg h]
        rw [List.foldl_append]
        rw [ih (n / 10) (Nat.div_lt_self (by omega) (by omega)) acc]
        simp [List.foldl, List.length_append, pow_succ]
        have h10 : n % 10 + 48 - 48 = n % 10 := by omega
        ring_nf
        have := Nat.div_add_mod n 10
        omega
  intro n
  have := key n 0
  simpa using this

theorem digitsVal_natDecBytes (n : Nat) : digitsVal (natDecBytes n) = some n := by
  rw [digitsVal]
  rw [if_neg (natDecBytes_ne_nil n)]
  have hall : (natDecBytes n).all (fun b => 48 ≤ b && b ≤ 57) = true := by
    rw [List.all_eq_true]
    intro b hb
    have := natDecBytes_digits n b hb
    simp
    omega
  rw [if_pos hall]
  rw [dval_natDecBytes]

theorem natDecBytes_head : ∀ (n : Nat), ∃ b rest, natDecBytes n = b :: rest ∧ 48 ≤ b ∧ b ≤ 57 := by
  intro n
  cases hl : natDecBytes n with
  | nil => exact absurd hl (natDecBytes_ne_nil n)
  | cons b rest =>
    refine ⟨b, rest, rfl, ?_⟩
    have := natDecBytes_digits n b (by rw [hl]; simp)
    exact this

theorem atoiI64_natDecBytes (n : Nat) (h : n < 2 ^ 63) :
    atoiI64 (natDecBytes n) = some (n : Int) := by
  obtain ⟨b, rest, hl, hb1, hb2⟩ := natDecBytes_head n
  rw [hl, atoiI64]
  rw [if_neg (by omega), if_neg (by omega)]
  rw [← hl, digitsVal_natDecBytes]
  simp only [Option.bind]
  rw [if_pos (by push_cast; omega)]

theorem atoiI64_intDecBytes (i : Int) (h1 : -2 ^ 63 ≤ i) (h2 : i ≤ 2 ^ 63 - 1) :
    atoiI64 (intDecBytes i) = some i := by
  rw [intDecBytes]
  by_cases hneg : i < 0
  · have habs : ((i.natAbs : Nat) : Int) = -i :=
      Int.ofNat_natAbs_of_nonpos (le_of_lt hneg)
    rw [if_pos hneg, atoiI64]
    rw [if_neg (by omega), if_pos rfl]
    rw [digitsVal_natDecBytes]
    simp only [Option.bind]
    rw [if_pos (by omega)]
    congr 1
    omega
  · rw [if_neg hneg]
    rw [atoiI64_natDecBytes i.toNat (by omega)]
    congr 1
    omega

/-- No CR and no LF byte occurs in the list (the spec's constraint on
`Simple`/`Error` line payloads). -/
def noCrLf (l : Bytes) : Bool := l.all (fun b => !(b == 13) && !(b == 10))

mutual

/-- Modelled from the spec: the frame encoder (`Connection::write_frame` in
`connection.rs`, which is not among the provided sources).  Spec §4.1: each
variant is serialised with its tag byte and `\r\n` terminator structure;
bulk emits `$len\r\n<bytes>\r\n`, null is `$-1\r\n`, and arrays emit the
`*n\r\n` header followed by the concatenated child encodings. -/
def encode : Entity → Bytes
  | .simple s => 43 :: (s ++ [13, 10])
  | .error s => 45 :: (s ++ [13, 10])
  | .integer i => 58 :: (intDecBytes i ++ [13, 10])
  | .bulk b => 36 :: (natDecBytes b.length ++ [13, 10] ++ b ++ [13, 10])
  | .null => [36, 45, 49, 13, 10]
  | .array xs => 42 :: (natDecBytes xs.length ++ [13, 10] ++ encodeList xs)

/-- Concatenated encodings of an entity list (array children). -/
def encodeList : List Entity → Bytes
  | [] => []
  | x :: xs => encode x ++ encodeList xs

end

mutual

/-- Well-formedness of a value under the spec's data model (§3): `Simple` and
`Error` payloads are CR/LF-free valid UTF-8 (the latter automatic for Rust
`String`), and sizes/integers fit the machine types used by the Rust code
(automatic for Rust `usize`-length buffers and `i64` integers). -/
def wfEnt : Entity → Bool
  | .simple s => noCrLf s && utf8Valid s
  | .error s => noCrLf s && utf8Valid s
  | .bulk b => decide (b.length < 2 ^ 63)
  | .integer i => decide (-2 ^ 63 ≤ i) && decide (i ≤ 2 ^ 63 - 1)
  | .null => true
  | .array xs => decide (xs.length < 2 ^ 63) && wfEntList xs

/-- Well-formedness of every entity in a list. -/
def wfEntList : List Entity → Bool
  | [] => true
  | x :: xs => wfEnt x && wfEntList xs

end

theorem chunk_length (c : Curs) : c.chunk.length = c.rem := by
  simp [Curs.chunk, Curs.rem]

theorem chunk_add (c : Curs) (k : Nat) :
    Curs.chunk ⟨c.buf, c.pos + k⟩ = c.chunk.drop k := by
  simp [Curs.chunk, List.drop_drop]

theorem peekU8_chunk {c : Curs} {b : Nat} {rest : Bytes} (h : c.chunk = b :: rest) :
    peekU8 c = .ok b := by
  rw [peekU8, h]

theorem getU8_chunk {c : Curs} {b : Nat} {rest : Bytes} (h : c.chunk = b :: rest) :
    getU8 c = .ok (b, ⟨c.buf, c.pos + 1⟩) := by
  rw [getU8, h]

theorem noCrLf_no13 {s : Bytes} (h : noCrLf s = true) : (13 : Nat) ∉ s := by
  intro hmem
  rw [noCrLf, List.all_eq_true] at h
  have := h 13 hmem
  simp at this

theorem findCrlf_append : ∀ (s : Bytes) (t : Bytes), (13 : Nat) ∉ s →
    findCrlf (s ++ 13 :: 10 :: t) = some s.length := by
  intro s
  induction s with
  | nil =>
    intro t _
    rw [List.nil_append, findCrlf]
    simp
  | cons a s' ih =>
    intro t h13
    have ha : a ≠ 13 := by intro hc; exact h13 (by rw [hc]; exact List.mem_cons_self _ _)
    have hmem : (13 : Nat) ∉ s' := by intro hc; exact h13 (List.mem_cons_of_mem _ hc)
    cases s' with
    | nil =>
      rw [List.cons_append, List.nil_append, findCrlf]
      rw [if_neg (by simp [ha])]
      rw [findCrlf]
      simp
    | cons b s'' =>
      rw [List.cons_append, List.cons_append, findCrlf]
      rw [if_neg (by simp [ha])]
      have := ih t hmem
      rw [List.cons_append] at this
      rw [this]
      simp

theorem getLine_chunk {c : Curs} {s t : Bytes}
    (h : c.chunk = s ++ 13 :: 10 :: t) (h13 : (13 : Nat) ∉ s) :
    getLine c = .ok (s, ⟨c.buf, c.pos + s.length + 2⟩) := by
  rw [getLine, h, findCrlf_append s t h13]
  dsimp only
  rw [List.take_left]

theorem getDecimal_chunk {c : Curs} {dig t : Bytes} {n : Int}
    (h : c.chunk = dig ++ 13 :: 10 :: t) (h13 : (13 : Nat) ∉ dig)
    (hatoi : atoiI64 dig = some n) :
    getDecimal c = .ok (n, ⟨c.buf, c.pos + dig.length + 2⟩) := by
  rw [getDecimal, getLine_chunk h h13]
  dsimp only
  rw [hatoi]

theorem skip_chunk {c : Curs} {n : Nat} (h : n ≤ c.chunk.length) :
    skip c n = .ok ⟨c.buf, c.pos + n⟩ := by
  rw [skip, if_neg]
  rw [chunk_length] at h
  omega

theorem natDecBytes_no13 (n : Nat) : (13 : Nat) ∉ natDecBytes n := by
  intro hmem
  have := natDecBytes_digits n 13 hmem
  omega

theorem intDecBytes_no13 (i : Int) : (13 : Nat) ∉ intDecBytes i := by
  rw [intDecBytes]
  by_cases h : i < 0
  · rw [if_pos h]
    intro hmem
    rcases List.mem_cons.mp hmem with h1 | h1
    · omega
    · exact natDecBytes_no13 _ h1
  · rw [if_neg h]
    exact natDecBytes_no13 _

theorem encode_length_pos : ∀ (v : Entity), 0 < (encode v).length := by
  intro v
  cases v <;> simp [encode]

mutual

/-- A complete well-formed encoded frame at the cursor passes `check`, which
advances exactly past it (fuel-generic; the wrappers seed fuel above the
remaining byte count). -/
theorem check_encode (v : Entity) (hwf : wfEnt v = true) :
    ∀ (f : Nat) (c : Curs) (post : Bytes),
      c.chunk = encode v ++ post → c.rem < f →
      checkFuel f c = .ok ⟨c.buf, c.pos + (encode v).length⟩ := by
  intro f c post hchunk hf
  match f with
  | 0 => exact absurd hf (by omega)
  | f + 1 =>
    cases v with
    | simple s =>
      obtain ⟨hnc, hutf⟩ : noCrLf s = true ∧ utf8Valid s = true := by
        simpa [wfEnt] using hwf
      have hch : c.chunk = 43 :: (s ++ 13 :: 10 :: post) := by
        rw [hchunk]; simp [encode]
      have hch1 : Curs.chunk ⟨c.buf, c.pos + 1⟩ = s ++ 13 :: 10 :: post := by
        rw [chunk_add, hch]
        simp
      rw [checkFuel, getU8_chunk hch]
      dsimp only
      rw [if_pos rfl, getLine_chunk hch1 (noCrLf_no13 hnc)]
      simp [encode]
      omega
    | error s =>
      obtain ⟨hnc, hutf⟩ : noCrLf s = true ∧ utf8Valid s = true := by
        simpa [wfEnt] using hwf
      have hch : c.chunk = 45 :: (s ++ 13 :: 10 :: post) := by
        rw [hchunk]; simp [encode]
      have hch1 : Curs.chunk ⟨c.buf, c.pos + 1⟩ = s ++ 13 :: 10 :: post := by
        rw [chunk_add, hch]
        simp
      rw [checkFuel, getU8_chunk hch]
      dsimp only
      rw [if_neg (by omega), if_pos rfl, getLine_chunk hch1 (noCrLf_no13 hnc)]
      simp [encode]
      omega
    | integer i =>
      obtain ⟨hlo, hhi⟩ : -2 ^ 63 ≤ i ∧ i ≤ 2 ^ 63 - 1 := by
        simpa [wfEnt] using hwf
      have hch : c.chunk = 58 :: (intDecBytes i ++ 13 :: 10 :: post) := by
        rw [hchunk]; simp [encode]
      have hch1 : Curs.chunk ⟨c.buf, c.pos + 1⟩ = intDecBytes i ++ 13 :: 10 :: post := by
        rw [chunk_add, hch]
        simp
      rw [checkFuel, getU8_chunk hch]
      dsimp only
      rw [if_neg (by omega), if_neg (by omega), if_pos rfl,
        getDecimal_chunk hch1 (intDecBytes_no13 i) (atoiI64_intDecBytes i hlo hhi)]
      simp [encode]
      omega
    | bulk b =>
      have hlen : b.length < 2 ^ 63 := by simpa [wfEnt] using hwf
      have hch : c.chunk =
          36 :: (natDecBytes b.length ++ 13 :: 10 :: (b ++ 13 :: 10 :: post)) := by
        rw [hchunk]; simp [encode]
      have hch1 : Curs.chunk ⟨c.buf, c.pos + 1⟩ =
          natDecBytes b.length ++ 13 :: 10 :: (b ++ 13 :: 10 :: post) := by
        rw [chunk_add, hch]
        simp
      obtain ⟨d, rest, hnd, hd1, hd2⟩ := natDecBytes_head b.length
      have hpk : peekU8 ⟨c.buf, c.pos + 1⟩ = .ok d := by
        have hsh : Curs.chunk ⟨c.buf, c.pos + 1⟩ =
            d :: (rest ++ 13 :: 10 :: (b ++ 13 :: 10 :: post)) := by
          rw [hch1, hnd]
          simp
        exact peekU8_chunk hsh
      have hch2 : Curs.chunk ⟨c.buf, c.pos + 1 + (natDecBytes b.length).length + 2⟩ =
          b ++ 13 :: 10 :: post := by
        have heq : c.pos + 1 + (natDecBytes b.length).length + 2 =
            (c.pos + 1) + ((natDecBytes b.length).length + 2) := by omega
        rw [heq, chunk_add ⟨c.buf, c.pos + 1⟩, hch1, List.drop_append]
        simp
      rw [checkFuel, getU8_chunk hch]
      dsimp only
      rw [if_neg (by omega), if_neg (by omega), if_neg (by omega), if_pos rfl, hpk]
      dsimp only
      rw [if_neg (by omega),
        getDecimal_chunk hch1 (natDecBytes_no13 _) (atoiI64_natDecBytes _ hlen)]
      dsimp only
      rw [if_neg (by simp)]
      rw [show ((b.length : Int)).toNat = b.length from by simp]
      rw [skip_chunk (by rw [hch2]; simp)]
      simp [encode]
      omega
    | null =>
      have hch : c.chunk = 36 :: 45 :: 49 :: 13 :: 10 :: post := by
        rw [hchunk]; simp [encode]
      have hch1 : Curs.chunk ⟨c.buf, c.pos + 1⟩ = 45 :: 49 :: 13 :: 10 :: post := by
        rw [chunk_add, hch]
        simp
      rw [checkFuel, getU8_chunk hch]
      dsimp only
      rw [if_neg (by omega), if_neg (by omega), if_neg (by omega), if_pos rfl,
        peekU8_chunk hch1]
      dsimp only
      rw [if_pos rfl, skip_chunk (by rw [hch1]; simp)]
      simp [encode]
    | array xs =>
      obtain ⟨hlen, hwfl⟩ : xs.length < 2 ^ 63 ∧ wfEntList xs = true := by
        simpa [wfEnt] using hwf
      have hch : c.chunk =
          42 :: (natDecBytes xs.length ++ 13 :: 10 :: (encodeList xs ++ post)) := by
        rw [hchunk]; simp [encode]
      have hch1 : Curs.chunk ⟨c.buf, c.pos + 1⟩ =
          natDecBytes xs.length ++ 13 :: 10 :: (encodeList xs ++ post) := by
        rw [chunk_add, hch]
        simp
      have hch2 : Curs.chunk ⟨c.buf, c.pos + 1 + (natDecBytes xs.length).length + 2⟩ =
          encodeList xs ++ post := by
        have heq : c.pos + 1 + (natDecBytes xs.length).length + 2 =
            (c.pos + 1) + ((natDecBytes xs.length).length + 2) := by omega
        rw [heq, chunk_add ⟨c.buf, c.pos + 1⟩, hch1, List.drop_append]
        simp
      have hrem1 : c.rem = c.chunk.length := (chunk_length c).symm
      have hrem2 : Curs.rem ⟨c.buf, c.pos + 1 + (natDecBytes xs.length).length + 2⟩ < f := by
        have h1 := chunk_length ⟨c.buf, c.pos + 1 + (natDecBytes xs.length).length + 2⟩
        rw [hch2] at h1
        have h2 : 0 < (natDecBytes xs.length).length :=
          List.length_pos.mpr (natDecBytes_ne_nil _)
        rw [hch] at hrem1
        simp [List.length_append] at hrem1 h1
        omega
      rw [checkFuel, getU8_chunk hch]
      dsimp only
      rw [if_neg (by omega), if_neg (by omega), if_neg (by omega), if_neg (by omega),
        if_pos rfl,
        getDecimal_chunk hch1 (natDecBytes_no13 _) (atoiI64_natDecBytes _ hlen)]
      dsimp only
      rw [show ((xs.length : Int)).toNat = xs.length from by simp]
      rw [checkList_encode xs hwfl f _ post hch2 hrem2]
      simp [encode]
      omega

/-- The children of a well-formed encoded array all pass `check` in
sequence. -/
theorem checkList_encode (xs : List Entity) (hwf : wfEntList xs = true) :
    ∀ (f : Nat) (c : Curs) (post : Bytes),
      c.chunk = encodeList xs ++ post → c.rem < f →
      iterCheck (fun cc => checkFuel f cc) xs.length c =
        .ok ⟨c.buf, c.pos + (encodeList xs).length⟩ := by
  intro f c post hchunk hf
  match xs with
  | [] =>
    rw [List.length_nil, iterCheck]
    simp [encodeList]
  | x :: xs2 =>
    obtain ⟨hwx, hwxs⟩ : wfEnt x = true ∧ wfEntList xs2 = true := by
      simpa [wfEntList] using hwf
    have hch : c.chunk = encode x ++ (encodeList xs2 ++ post) := by
      rw [hchunk]; simp [encodeList, List.append_assoc]
    have hch1 : Curs.chunk ⟨c.buf, c.pos + (encode x).length⟩ =
        encodeList xs2 ++ post := by
      rw [chunk_add, hch, List.drop_left]
    have hf1 : Curs.rem ⟨c.buf, c.pos + (encode x).length⟩ < f := by
      have h1 := chunk_length c
      have h2 := chunk_length ⟨c.buf, c.pos + (encode x).length⟩
      rw [hch] at h1
      rw [hch1] at h2
      have h3 := encode_length_pos x
      simp [List.length_append] at h1 h2
      omega
    rw [List.length_cons, iterCheck]
    rw [check_encode x hwx f c _ hch hf]
    dsimp only
    rw [checkList_encode xs2 hwxs f _ post hch1 hf1]
    simp [encodeList]
    omega

end

mutual

/-- A complete well-formed encoded frame at the cursor parses back to the
encoded value, advancing exactly past it (fuel-generic). -/
theorem parse_encode (v : Entity) (hwf : wfEnt v = true) :
    ∀ (f : Nat) (c : Curs) (post : Bytes),
      c.chunk = encode v ++ post → c.rem < f →
      parseFuel f c = .ok v ⟨c.buf, c.pos + (encode v).length⟩ := by
  intro f c post hchunk hf
  match f with
  | 0 => exact absurd hf (by omega)
  | f + 1 =>
    cases v with
    | simple s =>
      obtain ⟨hnc, hutf⟩ : noCrLf s = true ∧ utf8Valid s = true := by
        simpa [wfEnt] using hwf
      have hch : c.chunk = 43 :: (s ++ 13 :: 10 :: post) := by
        rw [hchunk]; simp [encode]
      have hch1 : Curs.chunk ⟨c.buf, c.pos + 1⟩ = s ++ 13 :: 10 :: post := by
        rw [chunk_add, hch]
        simp
      rw [parseFuel, getU8_chunk hch]
      dsimp only
      rw [if_pos rfl, getLine_chunk hch1 (noCrLf_no13 hnc)]
      dsimp only
      rw [if_pos hutf]
      simp [encode]
      omega
    | error s =>
      obtain ⟨hnc, hutf⟩ : noCrLf s = true ∧ utf8Valid s = true := by
        simpa [wfEnt] using hwf
      have hch : c.chunk = 45 :: (s ++ 13 :: 10 :: post) := by
        rw [hchunk]; simp [encode]
      have hch1 : Curs.chunk ⟨c.buf, c.pos + 1⟩ = s ++ 13 :: 10 :: post := by
        rw [chunk_add, hch]
        simp
      rw [parseFuel, getU8_chunk hch]
      dsimp only
      rw [if_neg (by omega), if_pos rfl, getLine_chunk hch1 (noCrLf_no13 hnc)]
      dsimp only
      rw [if_pos hutf]
      simp [encode]
      omega
    | integer i =>
      obtain ⟨hlo, hhi⟩ : -2 ^ 63 ≤ i ∧ i ≤ 2 ^ 63 - 1 := by
        simpa [wfEnt] using hwf
      have hch : c.chunk = 58 :: (intDecBytes i ++ 13 :: 10 :: post) := by
        rw [hchunk]; simp [encode]
      have hch1 : Curs.chunk ⟨c.buf, c.pos + 1⟩ = intDecBytes i ++ 13 :: 10 :: post := by
        rw [chunk_add, hch]
        simp
      rw [parseFuel, getU8_chunk hch]
      dsimp only
      rw [if_neg (by omega), if_neg (by omega), if_pos rfl,
        getDecimal_chunk hch1 (intDecBytes_no13 i) (atoiI64_intDecBytes i hlo hhi)]
      simp [encode]
      omega
    | bulk b =>
      have hlen : b.length < 2 ^ 63 := by simpa [wfEnt] using hwf
      have hch : c.chunk =
          36 :: (natDecBytes b.length ++ 13 :: 10 :: (b ++ 13 :: 10 :: post)) := by
        rw [hchunk]; simp [encode]
      have hch1 : Curs.chunk ⟨c.buf, c.pos + 1⟩ =
          natDecBytes b.length ++ 13 :: 10 :: (b ++ 13 :: 10 :: post) := by
        rw [chunk_add, hch]
        simp
      obtain ⟨d, rest, hnd, hd1, hd2⟩ := natDecBytes_head b.length
      have hpk : peekU8 ⟨c.buf, c.pos + 1⟩ = .ok d := by
        have hsh : Curs.chunk ⟨c.buf, c.pos + 1⟩ =
            d :: (rest ++ 13 :: 10 :: (b ++ 13 :: 10 :: post)) := by
          rw [hch1, hnd]
          simp
        exact peekU8_chunk hsh
      have hch2 : Curs.chunk ⟨c.buf, c.pos + 1 + (natDecBytes b.length).length + 2⟩ =
          b ++ 13 :: 10 :: post := by
        have heq : c.pos + 1 + (natDecBytes b.length).length + 2 =
            (c.pos + 1) + ((natDecBytes b.length).length + 2) := by omega
        rw [heq, chunk_add ⟨c.buf, c.pos + 1⟩, hch1, List.drop_append]
        simp
      rw [parseFuel, getU8_chunk hch]
      dsimp only
      rw [if_neg (by omega), if_neg (by omega), if_neg (by omega), if_pos rfl, hpk]
      dsimp only
      rw [if_neg (by omega),
        getDecimal_chunk hch1 (natDecBytes_no13 _) (atoiI64_natDecBytes _ hlen)]
      dsimp only
      rw [if_neg (by simp)]
      rw [show ((b.length : Int)).toNat = b.length from by simp]
      have hrem2 : ¬ (Curs.rem ⟨c.buf, c.pos + 1 + (natDecBytes b.length).length + 2⟩ <
          b.length + 2) := by
        have h1 := chunk_length ⟨c.buf, c.pos + 1 + (natDecBytes b.length).length + 2⟩
        rw [hch2] at h1
        simp [List.length_append] at h1
        omega
      rw [if_neg hrem2]
      have htake : (Curs.chunk ⟨c.buf, c.pos + 1 + (natDecBytes b.length).length + 2⟩).take
          b.length = b := by
        rw [hch2]
        exact List.take_left b _
      rw [htake]
      simp [encode]
      omega
    | null =>
      have hch : c.chunk = 36 :: 45 :: 49 :: 13 :: 10 :: post := by
        rw [hchunk]; simp [encode]
      have hch1 : Curs.chunk ⟨c.buf, c.pos + 1⟩ = 45 :: 49 :: 13 :: 10 :: post := by
        rw [chunk_add, hch]
        simp
      have hch1' : Curs.chunk ⟨c.buf, c.pos + 1⟩ = [45, 49] ++ 13 :: 10 :: post := by
        rw [hch1]
        simp
      rw [parseFuel, getU8_chunk hch]
      dsimp only
      rw [if_neg (by omega), if_neg (by omega), if_neg (by omega), if_pos rfl,
        peekU8_chunk hch1]
      dsimp only
      rw [if_pos rfl, getLine_chunk hch1' (by simp)]
      dsimp only
      rw [if_pos rfl]
      simp [encode]
    | array xs =>
      obtain ⟨hlen, hwfl⟩ : xs.length < 2 ^ 63 ∧ wfEntList xs = true := by
        simpa [wfEnt] using hwf
      have hch : c.chunk =
          42 :: (natDecBytes xs.length ++ 13 :: 10 :: (encodeList xs ++ post)) := by
        rw [hchunk]; simp [encode]
      have hch1 : Curs.chunk ⟨c.buf, c.pos + 1⟩ =
          natDecBytes xs.length ++ 13 :: 10 :: (encodeList xs ++ post) := by
        rw [chunk_add, hch]
        simp
      have hch2 : Curs.chunk ⟨c.buf, c.pos + 1 + (natDecBytes xs.length).length + 2⟩ =
          encodeList xs ++ post := by
        have heq : c.pos + 1 + (natDecBytes xs.length).length + 2 =
            (c.pos + 1) + ((natDecBytes xs.length).length + 2) := by omega
        rw [heq, chunk_add ⟨c.buf, c.pos + 1⟩, hch1, List.drop_append]
        simp
      have hrem1 : c.rem = c.chunk.length := (chunk_length c).symm
      have hrem2 : Curs.rem ⟨c.buf, c.pos + 1 + (natDecBytes xs.length).length + 2⟩ < f := by
        have h1 := chunk_length ⟨c.buf, c.pos + 1 + (natDecBytes xs.length).length + 2⟩
        rw [hch2] at h1
        have h2 : 0 < (natDecBytes xs.length).length :=
          List.length_pos.mpr (natDecBytes_ne_nil _)
        rw [hch] at hrem1
        simp [List.length_append] at hrem1 h1
        omega
      rw [parseFuel, getU8_chunk hch]
      dsimp only
      rw [if_neg (by omega), if_neg (by omega), if_neg (by omega), if_neg (by omega),
        if_pos rfl,
        getDecimal_chunk hch1 (natDecBytes_no13 _) (atoiI64_natDecBytes _ hlen)]
      dsimp only
      rw [if_neg (by simp)]
      rw [show ((xs.length : Int)).toNat = xs.length from by simp]
      rw [parseList_encode xs hwfl f _ post hch2 hrem2]
      simp [encode]
      omega

/-- The children of a well-formed encoded array all parse back in sequence. -/
theorem parseList_encode (xs : List Entity) (hwf : wfEntList xs = true) :
    ∀ (f : Nat) (c : Curs) (post : Bytes),
      c.chunk = encodeList xs ++ post → c.rem < f →
      iterParse (fun cc => parseFuel f cc) xs.length c =
        .ok xs ⟨c.buf, c.pos + (encodeList xs).length⟩ := by
  intro f c post hchunk hf
  match xs with
  | [] =>
    rw [List.length_nil, iterParse]
    simp [encodeList]
  | x :: xs2 =>
    obtain ⟨hwx, hwxs⟩ : wfEnt x = true ∧ wfEntList xs2 = true := by
      simpa [wfEntList] using hwf
    have hch : c.chunk = encode x ++ (encodeList xs2 ++ post) := by
      rw [hchunk]; simp [encodeList, List.append_assoc]
    have hch1 : Curs.chunk ⟨c.buf, c.pos + (encode x).length⟩ =
        encodeList xs2 ++ post := by
      rw [chunk_add, hch, List.drop_left]
    have hf1 : Curs.rem ⟨c.buf, c.pos + (encode x).length⟩ < f := by
      have h1 := chunk_length c
      have h2 := chunk_length ⟨c.buf, c.pos + (encode x).length⟩
      rw [hch] at h1
      rw [hch1] at h2
      have h3 := encode_length_pos x
      simp [List.length_append] at h1 h2
      omega
    rw [List.length_cons, iterParse]
    rw [parse_encode x hwx f c _ hch hf]
    dsimp only
    rw [parseList_encode xs2 hwxs f _ post hch1 hf1]
    simp [encodeList]
    omega

end

theorem findCrlf_no13 : ∀ (l : Bytes), (13 : Nat) ∉ l → findCrlf l = none := by
  intro l
  induction l with
  | nil => intro _; simp [findCrlf]
  | cons a rest ih =>
    intro h
    have ha : a ≠ 13 := fun hc => h (by rw [hc]; exact List.mem_cons_self _ _)
    have hrest : (13 : Nat) ∉ rest := fun hc => h (List.mem_cons_of_mem _ hc)
    cases rest with
    | nil => simp [findCrlf]
    | cons b r2 =>
      rw [findCrlf]
      rw [if_neg (by simp [ha])]
      rw [ih hrest]
      rfl

theorem findCrlf_append13 : ∀ (l : Bytes), (13 : Nat) ∉ l → findCrlf (l ++ [13]) = none := by
  intro l
  induction l with
  | nil => intro _; simp [findCrlf]
  | cons a rest ih =>
    intro h
    have ha : a ≠ 13 := fun hc => h (by rw [hc]; exact List.mem_cons_self _ _)
    have hrest : (13 : Nat) ∉ rest := fun hc => h (List.mem_cons_of_mem _ hc)
    cases rest with
    | nil => simp [findCrlf, ha]
    | cons b r2 =>
      rw [List.cons_append, List.cons_append, findCrlf]
      rw [if_neg (by simp [ha])]
      have := ih hrest
      rw [List.cons_append] at this
      rw [this]
      rfl

/-- Truncating a CR-free line before its `\r\n` terminator leaves no `\r\n`
pair to find. -/
theorem findCrlf_take_line (s R : Bytes) (j : Nat) (h13 : (13 : Nat) ∉ s)
    (hj : j ≤ s.length + 1) : findCrlf ((s ++ 13 :: 10 :: R).take j) = none := by
  rw [List.take_append_eq_append_take]
  by_cases hle : j ≤ s.length
  · have h0 : j - s.length = 0 := by omega
    rw [h0]
    simp only [List.take_zero, List.append_nil]
    exact findCrlf_no13 _ (fun hc => h13 (List.take_subset _ _ hc))
  · have h1 : j - s.length = 1 := by omega
    have h2 : s.take j = s := List.take_of_length_le (by omega)
    rw [h1, h2]
    simp only [List.take_succ_cons, List.take_zero]
    exact findCrlf_append13 s h13

theorem getU8_empty {c : Curs} (h : c.chunk = []) : getU8 c = .error .incomplete := by
  rw [getU8, h]

theorem peekU8_empty {c : Curs} (h : c.chunk = []) : peekU8 c = .error .incomplete := by
  rw [peekU8, h]

theorem getLine_incomplete {c : Curs} (h : findCrlf c.chunk = none) :
    getLine c = .error .incomplete := by
  rw [getLine, h]

theorem getDecimal_incomplete {c : Curs} (h : findCrlf c.chunk = none) :
    getDecimal c = .error .incomplete := by
  rw [getDecimal, getLine_incomplete h]

theorem skip_incomplete {c : Curs} {n : Nat} (h : c.rem < n) :
    skip c n = .error .incomplete := by
  rw [skip, if_pos h]

mutual

/-- A strict prefix of a well-formed encoded frame is reported `Incomplete`
by both `check` and `parse` (fuel-generic). -/
theorem codec_incomplete (v : Entity) (hwf : wfEnt v = true) :
    ∀ (f : Nat) (c : Curs) (i : Nat), i < (encode v).length →
      c.chunk = (encode v).take i → c.rem < f →
      checkFuel f c = .err .incomplete ∧ parseFuel f c = .err .incomplete := by
  intro f c i hi hchunk hf
  match f with
  | 0 => exact absurd hf (by omega)
  | f + 1 =>
    have hcl : c.chunk.length = i := by
      rw [hchunk, List.length_take]
      omega
    cases i with
    | zero =>
      have hempty : c.chunk = [] := by rw [hchunk]; simp
      constructor
      · rw [checkFuel, getU8_empty hempty]
      · rw [parseFuel, getU8_empty hempty]
    | succ j =>
      have hrem : c.rem = j + 1 := by rw [← chunk_length]; omega
      cases v with
      | simple s =>
        obtain ⟨hnc, hutf⟩ : noCrLf s = true ∧ utf8Valid s = true := by
          simpa [wfEnt] using hwf
        have hch : c.chunk = 43 :: ((s ++ 13 :: 10 :: []).take j) := by
          rw [hchunk]
          simp [encode, List.take_succ_cons]
        have hch1 : Curs.chunk ⟨c.buf, c.pos + 1⟩ = (s ++ 13 :: 10 :: []).take j := by
          rw [chunk_add, hch]
          simp
        have hj : j ≤ s.length + 1 := by
          simp [encode] at hi
          omega
        have hnone : findCrlf (Curs.chunk ⟨c.buf, c.pos + 1⟩) = none := by
          rw [hch1]
          exact findCrlf_take_line s [] j (noCrLf_no13 hnc) hj
        constructor
        · rw [checkFuel, getU8_chunk hch]
          dsimp only
          rw [if_pos rfl, getLine_incomplete hnone]
        · rw [parseFuel, getU8_chunk hch]
          dsimp only
          rw [if_pos rfl, getLine_incomplete hnone]
      | error s =>
        obtain ⟨hnc, hutf⟩ : noCrLf s = true ∧ utf8Valid s = true := by
          simpa [wfEnt] using hwf
        have hch : c.chunk = 45 :: ((s ++ 13 :: 10 :: []).take j) := by
          rw [hchunk]
          simp [encode, List.take_succ_cons]
        have hch1 : Curs.chunk ⟨c.buf, c.pos + 1⟩ = (s ++ 13 :: 10 :: []).take j := by
          rw [chunk_add, hch]
          simp
        have hj : j ≤ s.length + 1 := by
          simp [encode] at hi
          omega
        have hnone : findCrlf (Curs.chunk ⟨c.buf, c.pos + 1⟩) = none := by
          rw [hch1]
          exact findCrlf_take_line s [] j (noCrLf_no13 hnc) hj
        constructor
        · rw [checkFuel, getU8_chunk hch]
          dsimp only
          rw [if_neg (by omega), if_pos rfl, getLine_incomplete hnone]
        · rw [parseFuel, getU8_chunk hch]
          dsimp only
          rw [if_neg (by omega), if_pos rfl, getLine_incomplete hnone]
      | integer i0 =>
        have hch : c.chunk = 58 :: ((intDecBytes i0 ++ 13 :: 10 :: []).take j) := by
          rw [hchunk]
          simp [encode, List.take_succ_cons]
        have hch1 : Curs.chunk ⟨c.buf, c.pos + 1⟩ =
            (intDecBytes i0 ++ 13 :: 10 :: []).take j := by
          rw [chunk_add, hch]
          simp
        have hj : j ≤ (intDecBytes i0).length + 1 := by
          simp [encode] at hi
          omega
        have hnone : findCrlf (Curs.chunk ⟨c.buf, c.pos + 1⟩) = none := by
          rw [hch1]
          exact findCrlf_take_line _ [] j (intDecBytes_no13 i0) hj
        constructor
        · rw [checkFuel, getU8_chunk hch]
          dsimp only
          rw [if_neg (by omega), if_neg (by omega), if_pos rfl, getDecimal_incomplete hnone]
        · rw [parseFuel, getU8_chunk hch]
          dsimp only
          rw [if_neg (by omega), if_neg (by omega), if_pos rfl, getDecimal_incomplete hnone]
      | bulk b =>
        have hlen : b.length < 2 ^ 63 := by simpa [wfEnt] using hwf
        have htail : (encode (Entity.bulk b)).take (j + 1) =
            36 :: ((natDecBytes b.length ++ 13 :: 10 :: (b ++ 13 :: 10 :: [])).take j) := by
          simp [encode, List.take_succ_cons]
        have hch : c.chunk =
            36 :: ((natDecBytes b.length ++ 13 :: 10 :: (b ++ 13 :: 10 :: [])).take j) := by
          rw [hchunk, htail]
        have hch1 : Curs.chunk ⟨c.buf, c.pos + 1⟩ =
            (natDecBytes b.length ++ 13 :: 10 :: (b ++ 13 :: 10 :: [])).take j := by
          rw [chunk_add, hch]
          simp
        have hjb : j < (natDecBytes b.length).length + 2 + (b.length + 2) := by
          simp [encode] at hi
          omega
        cases hj0 : j with
        | zero =>
          have hempty : Curs.chunk ⟨c.buf, c.pos + 1⟩ = [] := by
            rw [hch1, hj0]
            simp
          constructor
          · rw [checkFuel, getU8_chunk hch]
            dsimp only
            rw [if_neg (by omega), if_neg (by omega), if_neg (by omega), if_pos rfl,
              peekU8_empty hempty]
          · rw [parseFuel, getU8_chunk hch]
            dsimp only
            rw [if_neg (by omega), if_neg (by omega), if_neg (by omega), if_pos rfl,
              peekU8_empty hempty]
        | succ j2 =>
          obtain ⟨d, rest, hnd, hd1, hd2⟩ := natDecBytes_head b.length
          have hdc : (natDecBytes b.length ++ 13 :: 10 :: (b ++ 13 :: 10 :: [])) =
              d :: (rest ++ 13 :: 10 :: (b ++ 13 :: 10 :: [])) := by
            rw [hnd]
            simp
          have hpk : peekU8 ⟨c.buf, c.pos + 1⟩ = .ok d := by
            apply @peekU8_chunk ⟨c.buf, c.pos + 1⟩ d ((rest ++ 13 :: 10 :: (b ++ 13 :: 10 :: [])).take j2)
            rw [hch1, hdc, hj0, List.take_succ_cons]
          by_cases hline : j ≤ (natDecBytes b.length).length + 1
          · have hnone : findCrlf (Curs.chunk ⟨c.buf, c.pos + 1⟩) = none := by
              rw [hch1]
              exact findCrlf_take_line _ _ j (natDecBytes_no13 _) hline
            constructor
            · rw [checkFuel, getU8_chunk hch]
              dsimp only
              rw [if_neg (by omega), if_neg (by omega), if_neg (by omega), if_pos rfl, hpk]
              dsimp only
              rw [if_neg (by omega), getDecimal_incomplete hnone]
            · rw [parseFuel, getU8_chunk hch]
              dsimp only
              rw [if_neg (by omega), if_neg (by omega), if_neg (by omega), if_pos rfl, hpk]
              dsimp only
              rw [if_neg (by omega), getDecimal_incomplete hnone]
          · obtain ⟨m, hm⟩ : ∃ m, j = (natDecBytes b.length).length + 2 + m :=
              ⟨j - (natDecBytes b.length).length - 2, by omega⟩
            have hmb : m < b.length + 2 := by omega
            have hsplit : Curs.chunk ⟨c.buf, c.pos + 1⟩ =
                natDecBytes b.length ++ 13 :: 10 :: ((b ++ 13 :: 10 :: []).take m) := by
              rw [hch1, hm, List.take_append_eq_append_take,
                List.take_of_length_le (by omega)]
              congr 1
              have h2 : (natDecBytes b.length).length + 2 + m -
                  (natDecBytes b.length).length = m + 2 := by omega
              rw [h2, List.take_succ_cons, List.take_succ_cons]
            have hdec : getDecimal ⟨c.buf, c.pos + 1⟩ =
                .ok ((b.length : Int),
                  ⟨c.buf, c.pos + 1 + (natDecBytes b.length).length + 2⟩) :=
              getDecimal_chunk hsplit (natDecBytes_no13 _) (atoiI64_natDecBytes _ hlen)
            have hrem2 : Curs.rem ⟨c.buf, c.pos + 1 + (natDecBytes b.length).length + 2⟩ =
                m := by
              rw [← chunk_length]
              have heq : c.pos + 1 + (natDecBytes b.length).length + 2 =
                  (c.pos + 1) + ((natDecBytes b.length).length + 2) := by omega
              rw [heq, chunk_add ⟨c.buf, c.pos + 1⟩, hsplit, List.drop_append]
              simp [List.length_take]
              omega
            constructor
            · rw [checkFuel, getU8_chunk hch]
              dsimp only
              rw [if_neg (by omega), if_neg (by omega), if_neg (by omega), if_pos rfl, hpk]
              dsimp only
              rw [if_neg (by omega), hdec]
              dsimp only
              rw [if_neg (by simp)]
              rw [show ((b.length : Int)).toNat = b.length from by simp]
              rw [skip_incomplete (by omega)]
            · rw [parseFuel, getU8_chunk hch]
              dsimp only
              rw [if_neg (by omega), if_neg (by omega), if_neg (by omega), if_pos rfl, hpk]
              dsimp only
              rw [if_neg (by omega), hdec]
              dsimp only
              rw [if_neg (by simp)]
              rw [show ((b.length : Int)).toNat = b.length from by simp]
              rw [if_pos (by omega)]
      | null =>
        have hch : c.chunk = 36 :: ([45, 49, 13, 10].take j) := by
          rw [hchunk]
          simp [encode, List.take_succ_cons]
        have hch1 : Curs.chunk ⟨c.buf, c.pos + 1⟩ = [45, 49, 13, 10].take j := by
          rw [chunk_add, hch]
          simp
        have hj : j < 4 := by
          simp [encode] at hi
          omega
        cases hj0 : j with
        | zero =>
          have hempty : Curs.chunk ⟨c.buf, c.pos + 1⟩ = [] := by
            rw [hch1, hj0]
            simp
          constructor
          · rw [checkFuel, getU8_chunk hch]
            dsimp only
            rw [if_neg (by omega), if_neg (by omega), if_neg (by omega), if_pos rfl,
              peekU8_empty hempty]
          · rw [parseFuel, getU8_chunk hch]
            dsimp only
            rw [if_neg (by omega), if_neg (by omega), if_neg (by omega), if_pos rfl,
              peekU8_empty hempty]
        | succ j2 =>
          have hpk : peekU8 ⟨c.buf, c.pos + 1⟩ = .ok 45 := by
            apply @peekU8_chunk ⟨c.buf, c.pos + 1⟩ 45 ([49, 13, 10].take j2)
            rw [hch1, hj0]
            rfl
          have hnone : findCrlf (Curs.chunk ⟨c.buf, c.pos + 1⟩) = none := by
            rw [hch1, hj0]
            have : j2 < 3 := by omega
            interval_cases j2 <;> rfl
          have hr1 : Curs.rem ⟨c.buf, c.pos + 1⟩ = j := by
            rw [← chunk_length, hch1, List.length_take]
            simp
            omega
          constructor
          · rw [checkFuel, getU8_chunk hch]
            dsimp only
            rw [if_neg (by omega), if_neg (by omega), if_neg (by omega), if_pos rfl, hpk]
            dsimp only
            rw [if_pos rfl, skip_incomplete (by rw [hr1]; omega)]
          · rw [parseFuel, getU8_chunk hch]
            dsimp only
            rw [if_neg (by omega), if_neg (by omega), if_neg (by omega), if_pos rfl, hpk]
            dsimp only
            rw [if_pos rfl, getLine_incomplete hnone]
      | array xs =>
        obtain ⟨hlen, hwfl⟩ : xs.length < 2 ^ 63 ∧ wfEntList xs = true := by
          simpa [wfEnt] using hwf
        have hch : c.chunk =
            42 :: ((natDecBytes xs.length ++ 13 :: 10 :: encodeList xs).take j) := by
          rw [hchunk]
          simp [encode, List.take_succ_cons]
        have hch1 : Curs.chunk ⟨c.buf, c.pos + 1⟩ =
            (natDecBytes xs.length ++ 13 :: 10 :: encodeList xs).take j := by
          rw [chunk_add, hch]
          simp
        have hja : j < (natDecBytes xs.length).length + 2 + (encodeList xs).length := by
          simp [encode] at hi
          omega
        by_cases hline : j ≤ (natDecBytes xs.length).length + 1
        · have hnone : findCrlf (Curs.chunk ⟨c.buf, c.pos + 1⟩) = none := by
            rw [hch1]
            exact findCrlf_take_line _ _ j (natDecBytes_no13 _) hline
          constructor
          · rw [checkFuel, getU8_chunk hch]
            dsimp only
            rw [if_neg (by omega), if_neg (by omega), if_neg (by omega), if_neg (by omega),
              if_pos rfl, getDecimal_incomplete hnone]
          · rw [parseFuel, getU8_chunk hch]
            dsimp only
            rw [if_neg (by omega), if_neg (by omega), if_neg (by omega), if_neg (by omega),
              if_pos rfl, getDecimal_incomplete hnone]
        · obtain ⟨m, hm⟩ : ∃ m, j = (natDecBytes xs.length).length + 2 + m :=
            ⟨j - (natDecBytes xs.length).length - 2, by omega⟩
          have hmb : m < (encodeList xs).length := by omega
          have hsplit : Curs.chunk ⟨c.buf, c.pos + 1⟩ =
              natDecBytes xs.length ++ 13 :: 10 :: ((encodeList xs).take m) := by
            rw [hch1, hm, List.take_append_eq_append_take,
              List.take_of_length_le (by omega)]
            congr 1
            have h2 : (natDecBytes xs.length).length + 2 + m -
                (natDecBytes xs.length).length = m + 2 := by omega
            rw [h2, List.take_succ_cons, List.take_succ_cons]
          have hdec : getDecimal ⟨c.buf, c.pos + 1⟩ =
              .ok ((xs.length : Int),
                ⟨c.buf, c.pos + 1 + (natDecBytes xs.length).length + 2⟩) :=
            getDecimal_chunk hsplit (natDecBytes_no13 _) (atoiI64_natDecBytes _ hlen)
          have hch2 : Curs.chunk ⟨c.buf, c.pos + 1 + (natDecBytes xs.length).length + 2⟩ =
              (encodeList xs).take m := by
            have heq : c.pos + 1 + (natDecBytes xs.length).length + 2 =
                (c.pos + 1) + ((natDecBytes xs.length).length + 2) := by omega
            rw [heq, chunk_add ⟨c.buf, c.pos + 1⟩, hsplit, List.drop_append]
            simp
          have hrem2 : Curs.rem ⟨c.buf, c.pos + 1 + (natDecBytes xs.length).length + 2⟩ <
              f := by
            rw [← chunk_length, hch2, List.length_take]
            omega
          obtain ⟨hckl, hpsl⟩ := codecList_incomplete xs hwfl f
            ⟨c.buf, c.pos + 1 + (natDecBytes xs.length).length + 2⟩ m hmb hch2 hrem2
          constructor
          · rw [checkFuel, getU8_chunk hch]
            dsimp only
            rw [if_neg (by omega), if_neg (by omega), if_neg (by omega), if_neg (by omega),
              if_pos rfl, hdec]
            dsimp only
            rw [show ((xs.length : Int)).toNat = xs.length from by simp]
            rw [hckl]
          · rw [parseFuel, getU8_chunk hch]
            dsimp only
            rw [if_neg (by omega), if_neg (by omega), if_neg (by omega), if_neg (by omega),
              if_pos rfl, hdec]
            dsimp only
            rw [if_neg (by simp)]
            rw [show ((xs.length : Int)).toNat = xs.length from by simp]
            rw [hpsl]

/-- A strict prefix of the concatenated encodings of well-formed array
children makes both child loops report `Incomplete`. -/
theorem codecList_incomplete (xs : List Entity) (hwf : wfEntList xs = true) :
    ∀ (f : Nat) (c : Curs) (i : Nat), i < (encodeList xs).length →
      c.chunk = (encodeList xs).take i → c.rem < f →
      iterCheck (fun cc => checkFuel f cc) xs.length c = .err .incomplete ∧
      iterParse (fun cc => parseFuel f cc) xs.length c = .err .incomplete := by
  intro f c i hi hchunk hf
  match xs with
  | [] =>
    rw [encodeList] at hi
    simp at hi
  | x :: xs2 =>
    obtain ⟨hwx, hwxs⟩ : wfEnt x = true ∧ wfEntList xs2 = true := by
      simpa [wfEntList] using hwf
    have henc : encodeList (x :: xs2) = encode x ++ encodeList xs2 := by
      rw [encodeList]
    by_cases hfirst : i < (encode x).length
    · have hch : c.chunk = (encode x).take i := by
        rw [hchunk, henc, List.take_append_eq_append_take]
        have h0 : i - (encode x).length = 0 := by omega
        rw [h0]
        simp
      obtain ⟨hck, hps⟩ := codec_incomplete x hwx f c i hfirst hch hf
      constructor
      · rw [List.length_cons, iterCheck, hck]
      · rw [List.length_cons, iterParse, hps]
    · obtain ⟨m, hm⟩ : ∃ m, i = (encode x).length + m :=
        ⟨i - (encode x).length, by omega⟩
      have hmb : m < (encodeList xs2).length := by
        rw [henc] at hi
        simp [List.length_append] at hi
        omega
      have hch : c.chunk = encode x ++ ((encodeList xs2).take m) := by
        rw [hchunk, henc, List.take_append_eq_append_take,
          List.take_of_length_le (by omega)]
        congr 1
        rw [hm]
        congr 1
        omega
      have hch1 : Curs.chunk ⟨c.buf, c.pos + (encode x).length⟩ =
          (encodeList xs2).take m := by
        rw [chunk_add, hch, List.drop_left]
      have hrem1 : Curs.rem ⟨c.buf, c.pos + (encode x).length⟩ < f := by
        have h1 := chunk_length c
        have h2 := chunk_length ⟨c.buf, c.pos + (encode x).length⟩
        rw [hch] at h1
        rw [hch1] at h2
        simp [List.length_append] at h1 h2
        omega
      obtain ⟨hck2, hps2⟩ := codecList_incomplete xs2 hwxs f
        ⟨c.buf, c.pos + (encode x).length⟩ m hmb hch1 hrem1
      constructor
      · rw [List.length_cons, iterCheck,
          check_encode x hwx f c ((encodeList xs2).take m) hch hf]
        dsimp only
        rw [hck2]
      · rw [List.length_cons, iterParse,
          parse_encode x hwx f c ((encodeList xs2).take m) hch hf]
        dsimp only
        rw [hps2]

end

theorem getLine_ok_shape {c : Curs} {l : Bytes} {c2 : Curs}
    (h : getLine c = .ok (l, c2)) : c2 = ⟨c.buf, c.pos + l.length + 2⟩ := by
  rw [getLine] at h
  cases hf : findCrlf c.chunk with
  | none => rw [hf] at h; exact absurd h (by simp)
  | some i =>
    rw [hf] at h
    cases h
    have hb := findCrlf_bound c.chunk hf
    have hlen : (c.chunk.take i).length = i := by
      rw [List.length_take]
      omega
    rw [hlen]

theorem rem_zero_chunk {c : Curs} (h : c.rem = 0) : c.chunk = [] := by
  have := chunk_length c
  rw [h] at this
  exact List.length_eq_zero.mp this

/-- Alignment of `check` and `parse` at the same fuel: if `check` accepts a
frame, `parse` on the same region never reaches the `unimplemented!()` arm,
and when it succeeds it stops at exactly the position `check` computed. -/
theorem align_main : ∀ (k : Nat) (c : Curs), c.rem ≤ k →
    (∀ (f : Nat) (c2 : Curs), checkFuel f c = .ok c2 →
      parseFuel f c ≠ .panicked ∧ ∀ e c3, parseFuel f c = .ok e c3 → c3 = c2) ∧
    (∀ (n : Nat) (f : Nat) (c2 : Curs),
      iterCheck (fun cc => checkFuel f cc) n c = .ok c2 →
      iterParse (fun cc => parseFuel f cc) n c ≠ .panicked ∧
        ∀ es c3, iterParse (fun cc => parseFuel f cc) n c = .ok es c3 → c3 = c2) := by
  intro k
  induction k with
  | zero =>
    intro c hk
    have hempty : c.chunk = [] := rem_zero_chunk (by omega)
    have hP : ∀ (f : Nat) (c2 : Curs), checkFuel f c = .ok c2 →
        parseFuel f c ≠ .panicked ∧ ∀ e c3, parseFuel f c = .ok e c3 → c3 = c2 := by
      intro f c2 hck
      match f with
      | 0 => rw [checkFuel] at hck; exact absurd hck (by simp)
      | f + 1 =>
        rw [checkFuel, getU8_empty hempty] at hck
        exact absurd hck (by simp)
    refine ⟨hP, ?_⟩
    intro n f c2 hck
    match n with
    | 0 =>
      rw [iterCheck] at hck
      cases hck
      constructor
      · rw [iterParse]
        simp
      · intro es c3 h
        rw [iterParse] at h
        cases h
        rfl
    | n + 1 =>
      rw [iterCheck] at hck
      cases hs : checkFuel f c with
      | ok c1 =>
        exfalso
        cases f with
        | zero => rw [checkFuel] at hs; simp at hs
        | succ f2 => rw [checkFuel, getU8_empty hempty] at hs; simp at hs
      | err e => rw [hs] at hck; exact absurd hck (by simp)
      | outOfFuel => rw [hs] at hck; exact absurd hck (by simp)
  | succ k ih =>
    intro c hk
    have hP : ∀ (f : Nat) (c2 : Curs), checkFuel f c = .ok c2 →
        parseFuel f c ≠ .panicked ∧ ∀ e c3, parseFuel f c = .ok e c3 → c3 = c2 := by
      intro f c2 hck
      match f with
      | 0 => rw [checkFuel] at hck; exact absurd hck (by simp)
      | f + 1 =>
        rw [checkFuel] at hck
        rw [parseFuel]
        cases hU : getU8 c with
        | error e =>
          rw [hU] at hck
          exact absurd hck (by simp)
        | ok bc =>
          obtain ⟨b, c1⟩ := bc
          rw [hU] at hck
          dsimp only at hck ⊢
          obtain ⟨hb1, hp1, hlt⟩ := getU8_ok hU
          by_cases h43 : b = 43
          · rw [if_pos h43] at hck ⊢
            cases hL : getLine c1 with
            | error e => rw [hL] at hck; exact absurd hck (by simp)
            | ok p =>
              obtain ⟨l, cL⟩ := p
              rw [hL] at hck
              cases hck
              dsimp only
              by_cases hu : utf8Valid l
              · rw [if_pos hu]
                exact ⟨by simp, by intro e c3 h; cases h; rfl⟩
              · rw [if_neg hu]
                exact ⟨by simp, by intro e c3 h; simp at h⟩
          · rw [if_neg h43] at hck ⊢
            by_cases h45 : b = 45
            · rw [if_pos h45] at hck ⊢
              cases hL : getLine c1 with
              | error e => rw [hL] at hck; exact absurd hck (by simp)
              | ok p =>
                obtain ⟨l, cL⟩ := p
                rw [hL] at hck
                cases hck
                dsimp only
                by_cases hu : utf8Valid l
                · rw [if_pos hu]
                  exact ⟨by simp, by intro e c3 h; cases h; rfl⟩
                · rw [if_neg hu]
                  exact ⟨by simp, by intro e c3 h; simp at h⟩
            · rw [if_neg h45] at hck ⊢
              by_cases h58 : b = 58
              · rw [if_pos h58] at hck ⊢
                cases hD : getDecimal c1 with
                | error e => rw [hD] at hck; exact absurd hck (by simp)
                | ok p =>
                  obtain ⟨n0, cD⟩ := p
                  rw [hD] at hck
                  cases hck
                  dsimp only
                  exact ⟨by simp, by intro e c3 h; cases h; rfl⟩
              · rw [if_neg h58] at hck ⊢
                by_cases h36 : b = 36
                · rw [if_pos h36] at hck ⊢
                  cases hPk : peekU8 c1 with
                  | error e => rw [hPk] at hck; exact absurd hck (by simp)
                  | ok p =>
                    rw [hPk] at hck
                    dsimp only at hck ⊢
                    by_cases hp45 : p = 45
                    · rw [if_pos hp45] at hck ⊢
                      cases hS : skip c1 4 with
                      | error e => rw [hS] at hck; exact absurd hck (by simp)
                      | ok cS =>
                        rw [hS] at hck
                        cases hck
                        obtain ⟨hsb, hsp, _⟩ := skip_ok hS
                        cases hL : getLine c1 with
                        | error e => exact ⟨by simp, by intro e2 c3 h; simp at h⟩
                        | ok q =>
                          obtain ⟨l, cL⟩ := q
                          dsimp only
                          by_cases hl : l = [45, 49]
                          · rw [if_pos hl]
                            have hshape := getLine_ok_shape hL
                            refine ⟨by simp, ?_⟩
                            intro e c3 h
                            cases h
                            rw [hshape, hl]
                            cases c2 with
                            | mk sb sp =>
                              simp only [Curs.buf, Curs.pos] at hsb hsp
                              simp only [Curs.mk.injEq, List.length_cons, List.length_nil]
                              exact ⟨hsb.symm, by omega⟩
                          · rw [if_neg hl]
                            exact ⟨by simp, by intro e c3 h; simp at h⟩
                    · rw [if_neg hp45] at hck ⊢
                      cases hD : getDecimal c1 with
                      | error e => rw [hD] at hck; exact absurd hck (by simp)
                      | ok q =>
                        obtain ⟨len, cD⟩ := q
                        rw [hD] at hck
                        dsimp only at hck ⊢
                        by_cases hneg : len < 0
                        · rw [if_pos hneg] at hck
                          exact absurd hck (by simp)
                        · rw [if_neg hneg] at hck ⊢
                          cases hS : skip cD (len.toNat + 2) with
                          | error e => rw [hS] at hck; exact absurd hck (by simp)
                          | ok cS =>
                            rw [hS] at hck
                            cases hck
                            obtain ⟨hsb, hsp, hsr⟩ := skip_ok hS
                            rw [if_neg (by omega)]
                            refine ⟨by simp, ?_⟩
                            intro e c3 h
                            cases h
                            cases c2 with
                            | mk sb sp =>
                              simp only [Curs.buf, Curs.pos] at hsb hsp
                              simp only [Curs.mk.injEq]
                              exact ⟨hsb.symm, by omega⟩
                · rw [if_neg h36] at hck ⊢
                  by_cases h42 : b = 42
                  · rw [if_pos h42] at hck ⊢
                    cases hD : getDecimal c1 with
                    | error e => rw [hD] at hck; exact absurd hck (by simp)
                    | ok q =>
                      obtain ⟨len, cD⟩ := q
                      rw [hD] at hck
                      dsimp only at hck ⊢
                      by_cases hneg : len < 0
                      · rw [if_pos hneg]
                        exact ⟨by simp, by intro e c3 h; simp at h⟩
                      · rw [if_neg hneg]
                        obtain ⟨hdb, hdp, _⟩ := getDecimal_adv hD
                        have hremD : cD.rem ≤ k := by
                          have h1 : cD.rem < c.rem := by
                            have hb' : cD.buf = c.buf := hdb.trans hb1
                            rw [Curs.rem, Curs.rem, hb']
                            omega
                          omega
                        obtain ⟨_, hQ⟩ := ih cD hremD
                        obtain ⟨hnp, hagree⟩ := hQ len.toNat f c2 hck
                        cases hp : iterParse (fun cc => parseFuel f cc) len.toNat cD with
                        | ok es c3 =>
                          refine ⟨by simp, ?_⟩
                          intro e2 c4 h
                          cases h
                          exact hagree es c3 hp
                        | err e => exact ⟨by simp, by intro e2 c3 h; simp at h⟩
                        | panicked => exact absurd hp hnp
                        | outOfFuel => exact ⟨by simp, by intro e2 c3 h; simp at h⟩
                  · rw [if_neg h42] at hck
                    exact absurd hck (by simp)
    refine ⟨hP, ?_⟩
    intro n f c2 hck
    match n with
    | 0 =>
      rw [iterCheck] at hck
      cases hck
      constructor
      · rw [iterParse]
        simp
      · intro es c3 h
        rw [iterParse] at h
        cases h
        rfl
    | n + 1 =>
      rw [iterCheck] at hck
      cases hs : checkFuel f c with
      | err e => rw [hs] at hck; exact absurd hck (by simp)
      | outOfFuel => rw [hs] at hck; exact absurd hck (by simp)
      | ok c1 =>
        rw [hs] at hck
        obtain ⟨hnp1, hag1⟩ := hP f c1 hs
        obtain ⟨hcb, hcp, hclt⟩ := checkFuel_adv f c c1 hs
        have hrem1 : c1.rem ≤ k := by
          have h1 : c1.rem < c.rem := by
            rw [Curs.rem, Curs.rem, hcb]
            omega
          omega
        obtain ⟨_, hQ1⟩ := ih c1 hrem1
        obtain ⟨hnp2, hag2⟩ := hQ1 n f c2 hck
        rw [iterParse]
        cases hp : parseFuel f c with
        | err e => exact ⟨by simp, by intro es c3 h; simp at h⟩
        | panicked => exact absurd hp hnp1
        | outOfFuel => exact ⟨by simp, by intro es c3 h; simp at h⟩
        | ok e c3 =>
          have hc31 : c3 = c1 := hag1 e c3 hp
          subst hc31
          cases hp2 : iterParse (fun cc => parseFuel f cc) n c3 with
          | ok es c4 =>
            simp only [hp2]
            refine ⟨by simp, ?_⟩
            intro es2 c5 h
            cases h
            exact hag2 es c4 hp2
          | err e2 =>
            simp only [hp2]
            exact ⟨by simp, by intro es c5 h; simp at h⟩
          | panicked => exact absurd hp2 hnp2
          | outOfFuel =>
            simp only [hp2]
            exact ⟨by simp, by intro es c5 h; simp at h⟩

/-- `Entry` from `storage.rs`: stored value plus optional expiration
instant. -/
structure Entry where
  data : Entity
  expiresAt : Option Nat
deriving DecidableEq

/-- Comparison of two byte strings, byte-wise lexicographic — the `Ord` of a
Rust `String` (UTF-8 bytes) and of `Bytes`. -/
def bytesCompare : Bytes → Bytes → Ordering
  | [], [] => .eq
  | [], _ :: _ => .lt
  | _ :: _, [] => .gt
  | a :: as, b :: bs =>
    if a < b then .lt
    else if b < a then .gt
    else bytesCompare as bs

/-- Variant rank of the derived `Ord` for `Entity` (Rust declaration order:
`Simple`, `Bulk`, `Error`, `Integer`, `Null`, `Array`). -/
def entityRank : Entity → Nat
  | .simple _ => 0
  | .bulk _ => 1
  | .error _ => 2
  | .integer _ => 3
  | .null => 4
  | .array _ => 5

mutual

/-- The derived `Ord` for `Entity`: variant order first, then payload;
vectors compare lexicographically. -/
def entityCompare : Entity → Entity → Ordering
  | .simple a, .simple b => bytesCompare a b
  | .bulk a, .bulk b => bytesCompare a b
  | .error a, .error b => bytesCompare a b
  | .integer a, .integer b =>
    if a < b then .lt else if b < a then .gt else .eq
  | .null, .null => .eq
  | .array a, .array b => entityCompareList a b
  | a, b =>
    if entityRank a < entityRank b then .lt else .gt

/-- Lexicographic comparison of entity lists (the derived `Ord` of `Vec`). -/
def entityCompareList : List Entity → List Entity → Ordering
  | [], [] => .eq
  | [], _ :: _ => .lt
  | _ :: _, [] => .gt
  | a :: as, b :: bs =>
    match entityCompare a b with
    | .eq => entityCompareList as bs
    | o => o

end

/-- The derived `Ord` of the `(Instant, Entity)` pairs stored in the
`BTreeSet` expiration index: time first, then key. -/
def pairCompare (p q : Nat × Entity) : Ordering :=
  if p.1 < q.1 then .lt
  else if q.1 < p.1 then .gt
  else entityCompare p.2 q.2

/-- `BTreeSet::insert` on the ordered expiration index, modelled as ordered
insertion into a sorted duplicate-free list.  The equality test uses
structural equality, which coincides with `Ordering.eq` of the derived
(lawful) `Ord` in the Rust code. -/
def pairInsert (p : Nat × Entity) : List (Nat × Entity) → List (Nat × Entity)
  | [] => [p]
  | q :: rest =>
    if p = q then q :: rest
    else
      match pairCompare p q with
      | .lt => p :: q :: rest
      | _ => q :: pairInsert p rest

/-- `State` from `storage.rs`: the entries map (`entities`), the ordered
expiration index and the shutdown flag, guarded by one mutex in the Rust
code and passed explicitly here.  The pub/sub sender map is omitted: the
claims touching pub/sub concern the per-connection subscription set
(`cmd/subscribe.rs`), modelled separately, and the broadcast delivery count
is concurrency-dependent and enters `handlerStep` as an argument. -/
structure DbState where
  entities : Entity → Option Entry
  expirations : List (Nat × Entity)
  shutdown : Bool

/-- The initial state built by `Db::new`. -/
def initState : DbState := ⟨fun _ => none, [], false⟩

/-- `Db::get`: a clone of the stored data, or `None`.  Note: no expiration
check of any kind is performed here. -/
def dbGet (st : DbState) (key : Entity) : Option Entity :=
  (st.entities key).map Entry.data

/-- `Db::del`: remove the entry from the entries map only; any `(t, key)`
pair in the expiration index is left behind. -/
def dbDel (st : DbState) (key : Entity) : DbState × Option Entity :=
  ({ st with entities := fun k => if k = key then none else st.entities k },
    (st.entities key).map Entry.data)

/-- `State::next_expiration`: the minimum element of the index. -/
def nextExpiration (st : DbState) : Option Nat :=
  st.expirations.head?.map Prod.fst

/-- `Db::set` at instant `now`: compute `expires_at`, decide whether to wake
the purger, replace the entry capturing the previous one, remove the
previous entry's expiration pair, insert the new pair.  Returns the new
state and the notify flag. -/
def dbSet (st : DbState) (key value : Entity) (expire : Option Nat) (now : Nat) :
    DbState × Bool :=
  let expiresAt := expire.map (fun d => now + d)
  let notify :=
    match expiresAt with
    | some w =>
      match nextExpiration st with
      | some e => decide (e > w)
      | none => true
    | none => false
  let prev := st.entities key
  let ents1 : Entity → Option Entry :=
    fun k => if k = key then some ⟨value, expiresAt⟩ else st.entities k
  let exps1 :=
    match prev with
    | some pe =>
      match pe.expiresAt with
      | some w => st.expirations.erase (w, key)
      | none => st.expirations
    | none => st.expirations
  let exps2 :=
    match expiresAt with
    | some w => pairInsert (w, key) exps1
    | none => exps1
  (⟨ents1, exps2, st.shutdown⟩, notify)

/-- The purge loop of `Shared::purge_expired_keys`: while the front pair of
the index is due, remove the named entry from the entries map and drop the
pair; stop and report the front deadline once it lies in the future. -/
def purgeLoop : List (Nat × Entity) → (Entity → Option Entry) → Nat →
    List (Nat × Entity) × (Entity → Option Entry) × Option Nat
  | [], ents, _ => ([], ents, none)
  | (w, k) :: rest, ents, now =>
    if now < w then ((w, k) :: rest, ents, some w)
    else purgeLoop rest (fun j => if j = k then none else ents j) now

/-- `Shared::purge_expired_keys` at instant `now`: no-op returning `None`
when shut down, otherwise the purge loop. -/
def purgeExpiredKeys (st : DbState) (now : Nat) : DbState × Option Nat :=
  if st.shutdown then (st, none)
  else
    let r := purgeLoop st.expirations st.entities now
    (⟨r.2.1, r.1, st.shutdown⟩, r.2.2)

/-- `Db::shutdown_purge_task`: set the shutdown flag. -/
def dbShutdown (st : DbState) : DbState := { st with shutdown := true }

/-- States reachable from the empty database by the storage operations
(each invoked at an arbitrary instant). -/
inductive Reach : DbState → Prop where
  | init : Reach initState
  | set {st} (key value : Entity) (expire : Option Nat) (now : Nat) :
      Reach st → Reach (dbSet st key value expire now).1
  | del {st} (key : Entity) : Reach st → Reach (dbDel st key).1
  | purge {st} (now : Nat) : Reach st → Reach (purgeExpiredKeys st now).1
  | shutdown {st} : Reach st → Reach (dbShutdown st)

theorem mem_pairInsert_self (p : Nat × Entity) :
    ∀ (l : List (Nat × Entity)), p ∈ pairInsert p l := by
  intro l
  induction l with
  | nil => simp [pairInsert]
  | cons q rest ih =>
    rw [pairInsert]
    by_cases h : p = q
    · rw [if_pos h]
      rw [h]
      exact List.mem_cons_self _ _
    · rw [if_neg h]
      cases pairCompare p q with
      | lt => exact List.mem_cons_self _ _
      | eq => exact List.mem_cons_of_mem _ ih
      | gt => exact List.mem_cons_of_mem _ ih

theorem mem_pairInsert_of_mem (p x : Nat × Entity) :
    ∀ (l : List (Nat × Entity)), x ∈ l → x ∈ pairInsert p l := by
  intro l
  induction l with
  | nil => intro h; simp at h
  | cons q rest ih =>
    intro hx
    rw [pairInsert]
    by_cases h : p = q
    · rw [if_pos h]
      exact hx
    · rw [if_neg h]
      rcases List.mem_cons.mp hx with h1 | h1
      · cases pairCompare p q with
        | lt => exact List.mem_cons_of_mem _ (by rw [h1]; exact List.mem_cons_self _ _)
        | eq => rw [h1]; exact List.mem_cons_self _ _
        | gt => rw [h1]; exact List.mem_cons_self _ _
      · cases pairCompare p q with
        | lt => exact List.mem_cons_of_mem _ (List.mem_cons_of_mem _ h1)
        | eq => exact List.mem_cons_of_mem _ (ih h1)
        | gt => exact List.mem_cons_of_mem _ (ih h1)

theorem purgeLoop_entities : ∀ (l : List (Nat × Entity)) (ents : Entity → Option Entry)
    (now : Nat) (k : Entity) (e : Entry),
    (purgeLoop l ents now).2.1 k = some e →
    ents k = some e ∧ ∀ w, (w, k) ∈ l → (w, k) ∈ (purgeLoop l ents now).1 := by
  intro l
  induction l with
  | nil =>
    intro ents now k e h
    rw [purgeLoop] at h ⊢
    exact ⟨h, by intro w hw; simp at hw⟩
  | cons p rest ih =>
    intro ents now k e h
    obtain ⟨w0, k0⟩ := p
    rw [purgeLoop] at h ⊢
    by_cases hnow : now < w0
    · rw [if_pos hnow] at h ⊢
      exact ⟨h, fun w hw => hw⟩
    · rw [if_neg hnow] at h ⊢
      obtain ⟨h1, h2⟩ := ih (fun j => if j = k0 then none else ents j) now k e h
      have hk0 : k ≠ k0 := by
        intro hc
        rw [if_pos hc] at h1
        exact Option.noConfusion h1
      rw [if_neg hk0] at h1
      refine ⟨h1, ?_⟩
      intro w hw
      rcases List.mem_cons.mp hw with h3 | h3
      · exact absurd (congrArg Prod.snd h3) hk0
      · exact h2 w h3

/-- Unfolding of the entries map written by `Db::set`. -/
theorem dbSet_entities (st : DbState) (key value : Entity) (expire : Option Nat)
    (now : Nat) :
    ((dbSet st key value expire now).1).entities =
      fun k => if k = key then some ⟨value, expire.map (fun d => now + d)⟩
        else st.entities k := rfl

/-- Unfolding of the expiration index written by `Db::set`. -/
theorem dbSet_expirations (st : DbState) (key value : Entity) (expire : Option Nat)
    (now : Nat) :
    ((dbSet st key value expire now).1).expirations =
      (match expire.map (fun d => now + d) with
        | some w => pairInsert (w, key)
            (match st.entities key with
              | some pe =>
                match pe.expiresAt with
                | some w2 => st.expirations.erase (w2, key)
                | none => st.expirations
              | none => st.expirations)
        | none =>
            (match st.entities key with
              | some pe =>
                match pe.expiresAt with
                | some w2 => st.expirations.erase (w2, key)
                | none => st.expirations
              | none => st.expirations)) := rfl

/-- C3 (amended): the forward direction of invariant I1 holds in every state
reachable from the empty one by `set`, `del` and purger passes — a live
entry whose `expires_at` is `Some w` always has its pair `(w, key)` in the
expiration index.  The converse direction of the spec's biconditional is
not an invariant: `del` leaves the entry's stale pair in the index (see the
counterexample), so only this forward implication survives every
operation. -/
theorem reach_entry_pair_in_index : ∀ (st : DbState), Reach st →
    ∀ (k : Entity) (e : Entry) (w : Nat),
      st.entities k = some e → e.expiresAt = some w → (w, k) ∈ st.expirations := by
  intro st hre
  induction hre with
  | init =>
    intro k e w hk _
    exact absurd hk (by simp [initState])
  | @set st0 key value expire now hst ih =>
    intro k e w hk he
    rw [dbSet_entities] at hk
    dsimp only at hk
    rw [dbSet_expirations]
    by_cases hkey : k = key
    · rw [if_pos hkey] at hk
      cases hk
      dsimp only at he
      rw [he]
      dsimp only
      subst hkey
      exact mem_pairInsert_self _ _
    · rw [if_neg hkey] at hk
      have hmem := ih k e w hk he
      have hmem1 : (w, k) ∈
          (match st0.entities key with
            | some pe =>
              match pe.expiresAt with
              | some w2 => st0.expirations.erase (w2, key)
              | none => st0.expirations
            | none => st0.expirations) := by
        cases hp : st0.entities key with
        | none => simpa using hmem
        | some pe =>
          cases hpe : pe.expiresAt with
          | none => simpa [hpe] using hmem
          | some w2 =>
            dsimp only
            rw [hpe]
            dsimp only
            rw [List.mem_erase_of_ne (by simp [hkey])]
            exact hmem
      cases hexp : expire.map (fun d => now + d) with
      | none => exact hmem1
      | some w3 => exact mem_pairInsert_of_mem _ _ _ hmem1
  | @del st0 key hst ih =>
    intro k e w hk he
    have hk2 : st0.entities k = some e := by
      by_cases hkey : k = key
      · rw [show ((dbDel st0 key).1).entities = fun j => if j = key then none
          else st0.entities j from rfl] at hk
        dsimp only at hk
        rw [if_pos hkey] at hk
        exact absurd hk (by simp)
      · rw [show ((dbDel st0 key).1).entities = fun j => if j = key then none
          else st0.entities j from rfl] at hk
        dsimp only at hk
        rw [if_neg hkey] at hk
        exact hk
    exact ih k e w hk2 he
  | @purge st0 now hst ih =>
    intro k e w hk he
    rw [purgeExpiredKeys] at hk ⊢
    by_cases hsd : st0.shutdown
    · rw [if_pos hsd] at hk ⊢
      exact ih k e w hk he
    · rw [if_neg hsd] at hk ⊢
      obtain ⟨h1, h2⟩ := purgeLoop_entities st0.expirations st0.entities now k e hk
      exact h2 w (ih k e w h1 he)
  | @shutdown st0 hst ih =>
    intro k e w hk he
    exact ih k e w hk he

/-! ### The command layer: `parse.rs`, `cmd/*.rs` and one `Handler::run` step -/

/-- ASCII uppercasing of one byte (the `a`-`z` window).  `str::to_uppercase`
is Unicode-aware, but every comparison the code makes with its result is
against the ASCII literals `"EX"`/`"PX"`, and on those comparisons the two
mappings agree (no Unicode uppercasing produces `E` or `X` from a non-ASCII
character). -/
def asciiUpper (b : Nat) : Nat := if 97 ≤ b ∧ b ≤ 122 then b - 32 else b

/-- ASCII lowercasing of one byte; `str::to_lowercase` as compared against
the ASCII command-name literals of `Command::from_frame`. -/
def asciiLower (b : Nat) : Nat := if 65 ≤ b ∧ b ≤ 90 then b + 32 else b

/-- `s.to_uppercase()` of a `String` held as its UTF-8 bytes (ASCII scope). -/
def upperBytes (s : Bytes) : Bytes := s.map asciiUpper

/-- `s.to_lowercase()` of a `String` held as its UTF-8 bytes (ASCII scope). -/
def lowerBytes (s : Bytes) : Bytes := s.map asciiLower

/-- `Parse::next` over the remaining parts of the one array frame: the next
entity, or `EndOfStream`. -/
def pNext : List Entity → Except Cerr (Entity × List Entity)
  | [] => .error .endOfStream
  | e :: rest => .ok (e, rest)

/-- The body of `Parse::next_string` on one entity: a `Simple` payload as
is (a Rust `String` is already valid UTF-8), a `Bulk` payload through
`str::from_utf8`, anything else the protocol error.  (The dynamic `{:?}`
rendering of the offending frame inside the Rust message is elided; no
claim depends on it.) -/
def entityToString : Entity → Except Cerr Bytes
  | .simple s => .ok s
  | .bulk d =>
    if utf8Valid d then .ok d else .error (.other "protocol error; invalid string")
  | _ => .error (.other "protocol error; expected simple frame or bulk frame")

/-- `Parse::next_string`. -/
def pNextString (l : List Entity) : Except Cerr (Bytes × List Entity) :=
  match l with
  | [] => .error .endOfStream
  | e :: rest =>
    match entityToString e with
    | .ok s => .ok (s, rest)
    | .error er => .error er

/-- `Parse::next_int`: an `Integer` entity, or the protocol error. -/
def pNextInt : List Entity → Except Cerr (Int × List Entity)
  | [] => .error .endOfStream
  | .integer i :: rest => .ok (i, rest)
  | _ :: _ => .error (.other "protocol error; expected number")

/-- `Parse::next_bytes`: a `Simple` or `Bulk` payload. -/
def pNextBytes : List Entity → Except Cerr (Bytes × List Entity)
  | [] => .error .endOfStream
  | .simple s :: rest => .ok (s, rest)
  | .bulk d :: rest => .ok (d, rest)
  | _ :: _ => .error (.other "protocol error; expected simple frame or bulk frame")

/-- `Parse::finish`: a remaining entity is the protocol error. -/
def pFinish : List Entity → Except Cerr Unit
  | [] => .ok ()
  | _ :: _ => .error (.other "protocol error; expected end of frame, but there was more")

/-- `Duration::from_secs` in the millisecond model of `Duration`. -/
def durFromSecs (n : Nat) : Nat := n * 1000

/-- `Duration::from_millis` in the millisecond model of `Duration`. -/
def durFromMillis (n : Nat) : Nat := n

/-- The `as u64` cast of an `i64` value: two's-complement reduction modulo
`2 ^ 64`. -/
def i64AsU64 (i : Int) : Nat := (i % (2 ^ 64 : Int)).toNat

/-- The `Command` enumeration of `parse.rs`, each variant carrying the parsed
payload of its `cmd/*.rs` struct.  The `expire` field of `set` is the
optional `Duration` in milliseconds. -/
inductive Command : Type where
  | get (key : Entity)
  | publish (channel : Bytes) (message : Entity)
  | set (key value : Entity) (expire : Option Nat)
  | del (key : Entity)
  | subscribe (channels : List Bytes)
  | unsubscribe (channels : List Bytes)
  | ping (msg : Option Bytes)
  | unknown (name : Bytes)
deriving DecidableEq

/-- `Get::parse_frames`. -/
def getParseFrames (l : List Entity) : Except Cerr (Command × List Entity) :=
  match pNext l with
  | .error e => .error e
  | .ok (key, l1) => .ok (.get key, l1)

/-- `Del::parse_frames`. -/
def delParseFrames (l : List Entity) : Except Cerr (Command × List Entity) :=
  match pNext l with
  | .error e => .error e
  | .ok (key, l1) => .ok (.del key, l1)

/-- `Publish::parse_frames`. -/
def publishParseFrames (l : List Entity) : Except Cerr (Command × List Entity) :=
  match pNextString l with
  | .error e => .error e
  | .ok (channel, l1) =>
    match pNext l1 with
    | .error e => .error e
    | .ok (message, l2) => .ok (.publish channel message, l2)

/-- `Ping::parse_frames`: an optional message; a missing one is a bare ping. -/
def pingParseFrames (l : List Entity) : Except Cerr (Command × List Entity) :=
  match pNextBytes l with
  | .ok (msg, l1) => .ok (.ping (some msg), l1)
  | .error .endOfStream => .ok (.ping none, l)
  | .error e => .error e

/-- `Set::parse_frames`: key, value, then optionally an option name matched
as `EX`/`PX` after `to_uppercase` with an integer count cast `as u64`; any
other third string is the unknown-option error; a missing third argument
(`EndOfStream`) means no expiration. -/
def setParseFrames (l : List Entity) : Except Cerr (Command × List Entity) :=
  match pNext l with
  | .error e => .error e
  | .ok (key, l1) =>
    match pNext l1 with
    | .error e => .error e
    | .ok (value, l2) =>
      match pNextString l2 with
      | .ok (s, l3) =>
        if upperBytes s = bytesOfAscii "EX" then
          match pNextInt l3 with
          | .error e => .error e
          | .ok (secs, l4) =>
            .ok (.set key value (some (durFromSecs (i64AsU64 secs))), l4)
        else if upperBytes s = bytesOfAscii "PX" then
          match pNextInt l3 with
          | .error e => .error e
          | .ok (ms, l4) =>
            .ok (.set key value (some (durFromMillis (i64AsU64 ms))), l4)
        else .error (.other "currently `SET` only supports the expiration option")
      | .error .endOfStream => .ok (.set key value none, l2)
      | .error e => .error e

/-- The channel-collecting loop shared by `Subscribe::parse_frames` and
`Unsubscribe::parse_frames`: every remaining part through `next_string`
until the parts run out. -/
def collectStrings : List Entity → Except Cerr (List Bytes)
  | [] => .ok []
  | e :: rest =>
    match entityToString e with
    | .ok s =>
      match collectStrings rest with
      | .ok ss => .ok (s :: ss)
      | .error er => .error er
    | .error er => .error er

/-- `Subscribe::parse_frames`: one mandatory channel, then the rest of the
parts; the loop always drains the frame. -/
def subscribeParseFrames (l : List Entity) : Except Cerr (Command × List Entity) :=
  match pNextString l with
  | .error e => .error e
  | .ok (c, l1) =>
    match collectStrings l1 with
    | .ok cs => .ok (.subscribe (c :: cs), [])
    | .error e => .error e

/-- `Unsubscribe::parse_frames`: a possibly empty channel list. -/
def unsubscribeParseFrames (l : List Entity) : Except Cerr (Command × List Entity) :=
  match collectStrings l with
  | .ok cs => .ok (.unsubscribe cs, [])
  | .error e => .error e

/-- Run one command's `parse_frames` result through `Parse::finish`. -/
def afterParse (r : Except Cerr (Command × List Entity)) : Except Cerr Command :=
  match r with
  | .error e => .error e
  | .ok (cmd, rest) =>
    match pFinish rest with
    | .error e => .error e
    | .ok _ => .ok cmd

/-- `Command::from_frame`: the frame must be an array; its first part,
lowercased, picks the command; a name matching no branch becomes `Unknown`
and returns early, skipping the `finish` check; every other command runs its
`parse_frames` and then `finish`. -/
def fromFrame (frame : Entity) : Except Cerr Command :=
  match frame with
  | .array parts =>
    match pNextString parts with
    | .error e => .error e
    | .ok (raw, rest) =>
      if lowerBytes raw = bytesOfAscii "get" then afterParse (getParseFrames rest)
      else if lowerBytes raw = bytesOfAscii "set" then afterParse (setParseFrames rest)
      else if lowerBytes raw = bytesOfAscii "del" then afterParse (delParseFrames rest)
      else if lowerBytes raw = bytesOfAscii "publish" then
        afterParse (publishParseFrames rest)
      else if lowerBytes raw = bytesOfAscii "ping" then afterParse (pingParseFrames rest)
      else if lowerBytes raw = bytesOfAscii "subscribe" then
        afterParse (subscribeParseFrames rest)
      else if lowerBytes raw = bytesOfAscii "unsubscribe" then
        afterParse (unsubscribeParseFrames rest)
      else .ok (.unknown (lowerBytes raw))
  | _ => .error (.other "protocol error; expected array")

/-- What one `Handler::run` iteration does with the connection after one
frame: keep serving, stop with an error (every `?`-propagated error ends the
handler task and with it the connection), or enter the subscribe loop of
`Subscribe::apply`. -/
inductive Outcome : Type where
  | keepOpen
  | terminated (e : Cerr)
  | subscribeLoop (channels : List Bytes)
deriving DecidableEq

/-- One iteration of `Handler::run` on `frame` at instant `now`:
`Command::from_frame`, then the command's `apply` against the storage state.
`pubRecv` is the subscriber count `db.publish` reports (the receiver count
of the broadcast channel, which depends on the other connections).  Returns
the new storage state, the frames written to this peer, and the connection
outcome. -/
def handlerStep (st : DbState) (frame : Entity) (now pubRecv : Nat) :
    DbState × List Entity × Outcome :=
  match fromFrame frame with
  | .error e => (st, [], .terminated e)
  | .ok cmd =>
    match cmd with
    | .get key =>
      match dbGet st key with
      | some v => (st, [v], .keepOpen)
      | none => (st, [.null], .keepOpen)
    | .set key value expire =>
      ((dbSet st key value expire now).1, [.simple (bytesOfAscii "OK")], .keepOpen)
    | .del key => ((dbDel st key).1, [.simple (bytesOfAscii "OK")], .keepOpen)
    | .publish _ _ => (st, [.integer (pubRecv : Int)], .keepOpen)
    | .ping none => (st, [.simple (bytesOfAscii "PONG")], .keepOpen)
    | .ping (some m) => (st, [.bulk m], .keepOpen)
    | .subscribe cs => (st, [], .subscribeLoop cs)
    | .unsubscribe _ =>
      (st, [], .terminated (.other "`Unsubsribe` is unsuppored in this context"))
    | .unknown nm =>
      (st, [.error (bytesOfAscii "ERR unknown command '" ++ nm
        ++ bytesOfAscii "'")], .keepOpen)

/-- `make_subscribe_frame` from `cmd/subscribe.rs`. -/
def makeSubscribeFrame (channel : Bytes) (numSubs : Nat) : Entity :=
  .array [.bulk (bytesOfAscii "subscribe"), .bulk channel, .integer (numSubs : Int)]

/-- `make_unsubscribe_frame` from `cmd/subscribe.rs`. -/
def makeUnsubscribeFrame (channel : Bytes) (numSubs : Nat) : Entity :=
  .array [.bulk (bytesOfAscii "unsubscribe"), .bulk channel, .integer (numSubs : Int)]

/-- `StreamMap::insert` restricted to the key set (the connection's
subscribed channels): inserting a present key replaces its stream and leaves
the key set unchanged; a new key is added. -/
def subsInsert (channel : Bytes) (subs : List Bytes) : List Bytes :=
  if channel ∈ subs then subs else subs ++ [channel]

/-- The `for channel_name in self.channels.drain(..)` loop of
`Subscribe::apply`: each channel is inserted into this connection's stream
map (`subscribe_to_channel`) and acknowledged with a `subscribe` frame
carrying `subscriptions.len()` as of that moment. -/
def drainChannels : List Bytes → List Bytes → List Bytes × List Entity
  | [], subs => (subs, [])
  | ch :: rest, subs =>
    ((drainChannels rest (subsInsert ch subs)).1,
      makeSubscribeFrame ch (subsInsert ch subs).length
        :: (drainChannels rest (subsInsert ch subs)).2)

/-- The `for channel_name in unsubscribe.channels` loop of `handle_command`:
each channel is removed from the stream map and acknowledged with an
`unsubscribe` frame carrying the new `subscriptions.len()`. -/
def removeChannels : List Bytes → List Bytes → List Bytes × List Entity
  | [], subs => (subs, [])
  | ch :: rest, subs =>
    ((removeChannels rest (subs.erase ch)).1,
      makeUnsubscribeFrame ch (subs.erase ch).length
        :: (removeChannels rest (subs.erase ch)).2)

/-- The `Unsubscribe` arm of `handle_command`: an empty channel list stands
for every currently subscribed channel. -/
def handleUnsubscribe (channels subs : List Bytes) : List Bytes × List Entity :=
  removeChannels (if channels = [] then subs else channels) subs

/-! ### The claims -/

/-- C1 (amended): `Db::get` performs no freshness check at read time — it
returns whatever the entries map stores for the key, expired or not (the
spec's "GET on a present but expired key MUST return Null" does not hold);
an expired entry stops being returned only once a purger pass at an instant
past its deadline has removed it. -/
theorem spec_c1 (st : DbState) (key value : Entity) (e : Entry) (d now now2 : Nat) :
    (st.entities key = some e → dbGet st key = some e.data) ∧
    (now + d ≤ now2 →
      dbGet (purgeExpiredKeys (dbSet initState key value (some d) now).1 now2).1 key
        = none) := by
  constructor
  · intro h
    show (st.entities key).map Entry.data = some e.data
    rw [h]
    rfl
  · intro h
    have hns : ¬ now2 < now + d := by omega
    have hst1 : (dbSet initState key value (some d) now).1
        = ⟨fun k => if k = key then some ⟨value, some (now + d)⟩ else none,
           [(now + d, key)], false⟩ := rfl
    rw [hst1]
    simp only [purgeExpiredKeys]
    rw [if_neg (by simp)]
    simp only [purgeLoop]
    rw [if_neg hns]
    simp [purgeLoop, dbGet]

theorem spec_c1_witness :
    dbGet (purgeExpiredKeys (dbSet initState (Entity.simple [107])
        (Entity.simple [118]) (some 0) 5).1 10).1 (Entity.simple [107]) = none :=
  (spec_c1 initState (Entity.simple [107]) (Entity.simple [118])
    ⟨Entity.null, none⟩ 0 5 10).2 (by decide)

/-- A stored entry whose `expires_at` instant has passed is still returned
by `Db::get` (here: set at instant 5 with a zero duration, so the deadline
is 5, and the entry is returned unchanged ever after — `dbGet` takes no
instant at all). -/
theorem c1_cex :
    ((dbSet initState (Entity.simple [107]) (Entity.simple [118]) (some 0) 5).1).entities
        (Entity.simple [107]) = some ⟨Entity.simple [118], some 5⟩ ∧
    dbGet ((dbSet initState (Entity.simple [107]) (Entity.simple [118]) (some 0) 5).1)
        (Entity.simple [107]) = some (Entity.simple [118]) := by
  decide

/-- C2: a purger pass removes an entry that has no expiration at all, when a
stale index pair left behind by `del` names its key: set `k` with a
one-millisecond expiry at instant 0, delete `k`, set `k` again with no
expiry, then run the purger at instant 2 — the fresh non-expiring entry is
gone. -/
theorem spec_c2 :
    ((dbSet (dbDel (dbSet initState (Entity.simple [107]) (Entity.simple [97])
        (some 1) 0).1 (Entity.simple [107])).1 (Entity.simple [107])
        (Entity.simple [98]) none 0).1).entities (Entity.simple [107])
      = some ⟨Entity.simple [98], none⟩ ∧
    ((purgeExpiredKeys ((dbSet (dbDel (dbSet initState (Entity.simple [107])
        (Entity.simple [97]) (some 1) 0).1 (Entity.simple [107])).1
        (Entity.simple [107]) (Entity.simple [98]) none 0).1) 2).1).entities
        (Entity.simple [107]) = none := by
  decide

theorem reach_c3_witness :
    (5, Entity.simple [107]) ∈ ((dbSet initState (Entity.simple [107])
        (Entity.simple [118]) (some 5) 0).1).expirations :=
  reach_entry_pair_in_index _ (Reach.set _ _ _ _ Reach.init) (Entity.simple [107])
    ⟨Entity.simple [118], some 5⟩ 5 (by decide) rfl

/-- In a reachable state the biconditional of invariant I1 fails: after a
`set` with expiry and a `del`, the pair `(5, k)` is in the expiration index
while `k` is absent from the entries map. -/
theorem c3_cex :
    Reach (dbDel (dbSet initState (Entity.simple [107]) (Entity.simple [118])
        (some 5) 0).1 (Entity.simple [107])).1 ∧
    (5, Entity.simple [107]) ∈ ((dbDel (dbSet initState (Entity.simple [107])
        (Entity.simple [118]) (some 5) 0).1 (Entity.simple [107])).1).expirations ∧
    ((dbDel (dbSet initState (Entity.simple [107]) (Entity.simple [118])
        (some 5) 0).1 (Entity.simple [107])).1).entities (Entity.simple [107])
      = none :=
  ⟨Reach.del _ (Reach.set _ _ _ _ Reach.init), by decide, by decide⟩

/-- C4 (amended): when `check` succeeds over a region, `parse` over the same
region does not hit the `unimplemented!()` arm, and when it returns a value
it leaves the cursor exactly where `check` did (it can still fail: `check`
accepts frames `parse` rejects, see the counterexample); a first byte
outside the five tags makes `check` return the invalid-frame error — but
`parse` panics on it rather than returning an error value. -/
theorem spec_c4 (c : Curs) :
    (∀ c2, Entity.check c = .ok c2 →
      Entity.parse c ≠ .panicked ∧ ∀ e c3, Entity.parse c = .ok e c3 → c3 = c2) ∧
    (∀ b rest, c.chunk = b :: rest → ¬(b = 43 ∨ b = 45 ∨ b = 58 ∨ b = 36 ∨ b = 42) →
      Entity.check c = .err (.other ("protocol error; invalid frame type byte `"
        ++ toString b ++ "`")) ∧ Entity.parse c = .panicked) := by
  constructor
  · intro c2 hck
    exact (align_main c.rem c (Nat.le_refl _)).1 (c.rem + 1) c2 hck
  · intro b rest hch hnot
    simp only [not_or] at hnot
    obtain ⟨h43, h45, h58, h36, h42⟩ := hnot
    constructor
    · show checkFuel (c.rem + 1) c = _
      rw [checkFuel, getU8_chunk hch]
      dsimp only
      rw [if_neg h43, if_neg h45, if_neg h58, if_neg h36, if_neg h42]
    · show parseFuel (c.rem + 1) c = _
      rw [parseFuel, getU8_chunk hch]
      dsimp only
      rw [if_neg h43, if_neg h45, if_neg h58, if_neg h36, if_neg h42]

theorem spec_c4_witness :
    Entity.parse ⟨[65, 13, 10], 0⟩ = .panicked :=
  ((spec_c4 ⟨[65, 13, 10], 0⟩).2 65 [13, 10] rfl (by decide)).2

/-- The check-then-parse contract fails on the input `$-2\r\n`: `check` skips
four bytes after `$-` and accepts, while `parse` demands the line `-1` and
returns the invalid-format error. -/
theorem c4_cex :
    Entity.check ⟨[36, 45, 50, 13, 10], 0⟩ = .ok ⟨[36, 45, 50, 13, 10], 5⟩ ∧
    Entity.parse ⟨[36, 45, 50, 13, 10], 0⟩
      = .err (.other "protocol error; invalid frame format") := by
  decide

/-- C5 (amended): the round-trip law holds for well-formed values — `Simple`
and `Error` payloads free of CR and LF (and valid UTF-8) — and any trailing
bytes: parsing a buffer that starts with `encode v` returns `v` and stops
exactly past it.  A payload containing CRLF re-parses to a different value
(see the counterexample). -/
theorem spec_c5 (v : Entity) (post : Bytes) (hwf : wfEnt v = true) :
    Entity.parse ⟨encode v ++ post, 0⟩ = .ok v ⟨encode v ++ post, (encode v).length⟩ := by
  have h := parse_encode v hwf (Curs.rem ⟨encode v ++ post, 0⟩ + 1) ⟨encode v ++ post, 0⟩
    post (by simp [Curs.chunk]) (Nat.lt_succ_self _)
  simpa [Entity.parse] using h

theorem spec_c5_witness :
    Entity.parse ⟨encode (Entity.simple [104, 105]) ++ [], 0⟩
      = .ok (Entity.simple [104, 105])
          ⟨encode (Entity.simple [104, 105]) ++ [], (encode (Entity.simple [104, 105])).length⟩ :=
  spec_c5 (Entity.simple [104, 105]) [] (by decide)

/-- Round-trip failure: the simple string whose payload holds a CRLF encodes
to `+a\r\nb\r\n`, which parses back as the simple string `a`. -/
theorem c5_cex :
    Entity.parse ⟨encode (Entity.simple [97, 13, 10, 98]), 0⟩
      = .ok (Entity.simple [97]) ⟨[43, 97, 13, 10, 98, 13, 10], 4⟩ ∧
    Entity.simple [97] ≠ Entity.simple [97, 13, 10, 98] := by
  decide

/-- C6 (amended): for a well-formed value, `check` and `parse` on every
strict prefix of `encode v` return the `Incomplete` error (so the caller
grows the buffer), and on the completed buffer `parse` returns `v`; without
well-formedness a strict prefix can already be accepted (see the
counterexample). -/
theorem spec_c6 (v : Entity) (i : Nat) (hwf : wfEnt v = true)
    (hi : i < (encode v).length) :
    Entity.check ⟨(encode v).take i, 0⟩ = .err .incomplete ∧
    Entity.parse ⟨(encode v).take i, 0⟩ = .err .incomplete ∧
    Entity.parse ⟨encode v, 0⟩ = .ok v ⟨encode v, (encode v).length⟩ := by
  obtain ⟨hck, hps⟩ := codec_incomplete v hwf (Curs.rem ⟨(encode v).take i, 0⟩ + 1)
    ⟨(encode v).take i, 0⟩ i hi (by simp [Curs.chunk]) (Nat.lt_succ_self _)
  refine ⟨hck, hps, ?_⟩
  have h := parse_encode v hwf (Curs.rem ⟨encode v, 0⟩ + 1) ⟨encode v, 0⟩ []
    (by simp [Curs.chunk]) (Nat.lt_succ_self _)
  simpa [Entity.parse] using h

theorem spec_c6_witness :
    Entity.check ⟨(encode Entity.null).take 2, 0⟩ = .err .incomplete ∧
    Entity.parse ⟨(encode Entity.null).take 2, 0⟩ = .err .incomplete ∧
    Entity.parse ⟨encode Entity.null, 0⟩
      = .ok Entity.null ⟨encode Entity.null, (encode Entity.null).length⟩ :=
  spec_c6 Entity.null 2 (by decide) (by decide)

/-- Incremental-decode failure without well-formedness: four of the seven
bytes of `encode (Simple "a\r\nb")` form a strict prefix that `check`
already accepts as a whole frame instead of reporting `Incomplete`. -/
theorem c6_cex :
    4 < (encode (Entity.simple [97, 13, 10, 98])).length ∧
    Entity.check ⟨(encode (Entity.simple [97, 13, 10, 98])).take 4, 0⟩
      = .ok ⟨[43, 97, 13, 10], 4⟩ := by
  decide

/-- C7 (amended): an argument-level failure does not become an `Error` frame
to the peer — `from_frame` propagates it (`?` in `Handler::run`), the
handler returns, and the connection terminates with no response written; the
unknown third option of `SET` is exactly such a failure.  Only an
unrecognised command name is answered with an `Error` frame on a connection
that stays open. -/
theorem spec_c7 (st : DbState) (now pr : Nat) (frame : Entity) :
    (∀ e, fromFrame frame = .error e →
      handlerStep st frame now pr = (st, [], .terminated e)) ∧
    (∀ key value (s : Bytes) (l : List Entity),
      upperBytes s ≠ bytesOfAscii "EX" → upperBytes s ≠ bytesOfAscii "PX" →
      setParseFrames (key :: value :: .simple s :: l)
        = .error (.other "currently `SET` only supports the expiration option")) ∧
    (∀ nm, fromFrame frame = .ok (.unknown nm) →
      handlerStep st frame now pr
        = (st, [.error (bytesOfAscii "ERR unknown command '" ++ nm
            ++ bytesOfAscii "'")], .keepOpen)) := by
  refine ⟨?_, ?_, ?_⟩
  · intro e h
    unfold handlerStep
    rw [h]
  · intro key value s l h1 h2
    simp only [setParseFrames, pNext, pNextString, entityToString]
    rw [if_neg h1, if_neg h2]
  · intro nm h
    unfold handlerStep
    rw [h]

theorem spec_c7_witness :
    handlerStep initState (Entity.integer 3) 0 0
      = (initState, [], .terminated (.other "protocol error; expected array")) :=
  (spec_c7 initState 0 0 (Entity.integer 3)).1 _ rfl

/-- A SET frame with the unknown option `XX` produces no response at all and
terminates the connection, instead of an `Error` frame on a surviving
connection. -/
theorem c7_cex :
    (handlerStep initState (Entity.array [Entity.bulk (bytesOfAscii "SET"),
        Entity.simple [107], Entity.simple [118], Entity.simple (bytesOfAscii "XX"),
        Entity.integer 1]) 0 0).2
      = ([], .terminated (.other "currently `SET` only supports the expiration option")) := by
  decide

/-- C8 (amended): the expiration option is matched after `to_uppercase`, so
every case variant of `ex`/`px` is accepted (not only the exact uppercase
spellings; lowercase `ex` is not rejected — see the counterexample), and the
command name itself matches case-insensitively through `to_lowercase`. -/
theorem spec_c8 (key value : Entity) (s raw : Bytes) (n : Int) :
    (upperBytes s = bytesOfAscii "EX" →
      setParseFrames [key, value, .simple s, .integer n]
        = .ok (.set key value (some (durFromSecs (i64AsU64 n))), [])) ∧
    (upperBytes s = bytesOfAscii "PX" →
      setParseFrames [key, value, .simple s, .integer n]
        = .ok (.set key value (some (durFromMillis (i64AsU64 n))), [])) ∧
    (lowerBytes raw = bytesOfAscii "ping" →
      fromFrame (.array [.simple raw]) = .ok (.ping none)) := by
  refine ⟨?_, ?_, ?_⟩
  · intro h
    simp only [setParseFrames, pNext, pNextString, entityToString, pNextInt]
    rw [if_pos h]
  · intro h
    simp only [setParseFrames, pNext, pNextString, entityToString, pNextInt]
    rw [if_neg (by rw [h]; decide), if_pos h]
  · intro h
    simp only [fromFrame, pNextString, entityToString]
    rw [h]
    simp only [if_neg (by decide : ¬ bytesOfAscii "ping" = bytesOfAscii "get"),
      if_neg (by decide : ¬ bytesOfAscii "ping" = bytesOfAscii "set"),
      if_neg (by decide : ¬ bytesOfAscii "ping" = bytesOfAscii "del"),
      if_neg (by decide : ¬ bytesOfAscii "ping" = bytesOfAscii "publish"),
      if_pos rfl]
    rfl

theorem spec_c8_witness :
    setParseFrames [Entity.null, Entity.null, Entity.simple [69, 88], Entity.integer 1]
      = .ok (.set Entity.null Entity.null (some 1000), []) := by
  have h := (spec_c8 Entity.null Entity.null [69, 88] [112] 1).1 (by decide)
  exact h.trans (by decide)

/-- The lowercase option name `ex` is accepted as the expiration option
(5 seconds become 5000 ms), not rejected with the unknown-option error. -/
theorem c8_cex :
    setParseFrames [Entity.simple [107], Entity.simple [118], Entity.simple [101, 120],
        Entity.integer 5]
      = .ok (.set (Entity.simple [107]) (Entity.simple [118]) (some 5000), []) := by
  decide

/-- C9: a negative `EX`/`PX` count is not rejected; the `as u64` cast wraps
it two's-complement, so `n` seconds become `(2 ^ 64 + n)` seconds (times
1000 in the millisecond model) and `n` milliseconds `(2 ^ 64 + n)`
milliseconds. -/
theorem spec_c9 (key value : Entity) (n : Int) (hneg : n < 0) (hrange : -2 ^ 63 ≤ n) :
    setParseFrames [key, value, .simple (bytesOfAscii "EX"), .integer n]
      = .ok (.set key value (some (((2 ^ 64 + n : Int)).toNat * 1000)), []) ∧
    setParseFrames [key, value, .simple (bytesOfAscii "PX"), .integer n]
      = .ok (.set key value (some ((2 ^ 64 + n : Int).toNat)), []) := by
  have hcast : i64AsU64 n = ((2 : Int) ^ 64 + n).toNat := by
    unfold i64AsU64
    have h64 : ((2 : Int) ^ 64) = 18446744073709551616 := by norm_num
    have h63 : ((2 : Int) ^ 63) = 9223372036854775808 := by norm_num
    rw [h64]
    rw [h63] at hrange
    congr 1
    omega
  constructor
  · simp only [setParseFrames, pNext, pNextString, entityToString, pNextInt]
    rw [if_pos (by decide)]
    simp [durFromSecs, hcast]
  · simp only [setParseFrames, pNext, pNextString, entityToString, pNextInt]
    rw [if_neg (by decide), if_pos (by decide)]
    simp [durFromMillis, hcast]

theorem spec_c9_witness :
    setParseFrames [Entity.null, Entity.null, Entity.simple (bytesOfAscii "EX"),
        Entity.integer (-5)]
      = .ok (.set Entity.null Entity.null (some ((2 ^ 64 - 5) * 1000)), []) := by
  have h := (spec_c9 Entity.null Entity.null (-5) (by decide) (by decide)).1
  exact h.trans (by decide)

/-- C10: the integer in the `i`-th acknowledgement frame of a subscribe
drain (and of an unsubscribe loop) is the size of this connection's own
stream map after that insertion (resp. removal) — the fold of the
connection's previous operations — never a cross-connection subscriber
count. -/
theorem spec_c10 : ∀ (chans subs : List Bytes) (i : Nat), i < chans.length →
    (drainChannels chans subs).2.getD i .null
      = makeSubscribeFrame (chans.getD i [])
          (((chans.take (i + 1)).foldl (fun acc c => subsInsert c acc) subs).length) ∧
    (removeChannels chans subs).2.getD i .null
      = makeUnsubscribeFrame (chans.getD i [])
          (((chans.take (i + 1)).foldl (fun acc c => acc.erase c) subs).length) := by
  intro chans
  induction chans with
  | nil =>
    intro subs i h
    simp at h
  | cons ch rest ih =>
    intro subs i h
    cases i with
    | zero =>
      refine ⟨?_, ?_⟩
      · rw [drainChannels]
        simp [List.take_succ_cons]
      · rw [removeChannels]
        simp [List.take_succ_cons]
    | succ j =>
      have hj : j < rest.length := by simpa using h
      refine ⟨?_, ?_⟩
      · have h1 := (ih (subsInsert ch subs) j hj).1
        rw [drainChannels]
        simp only [List.getD_cons_succ, List.take_succ_cons, List.foldl_cons]
        exact h1
      · have h2 := (ih (subs.erase ch) j hj).2
        rw [removeChannels]
        simp only [List.getD_cons_succ, List.take_succ_cons, List.foldl_cons]
        exact h2

theorem spec_c10_witness :
    (drainChannels [[104], [105]] [[104], [105]]).2.getD 1 Entity.null
      = makeSubscribeFrame [105] 2 ∧
    (removeChannels [[104], [105]] [[104], [105]]).2.getD 1 Entity.null
      = makeUnsubscribeFrame [105] 0 := by
  have h := spec_c10 [[104], [105]] [[104], [105]] 1 (by decide)
  exact ⟨h.1.trans (by decide), h.2.trans (by decide)⟩

end Cache